import Mathlib

/-!
Verification of the Authify backend's traffic-processing core.

The TypeScript sources under `packages/backend/src` are shallowly embedded here:
JS strings become `List Char` (ASCII fragment), JS objects used as ordered
string-keyed records become association lists with JS insertion-order update
semantics, and module-global mutable state becomes explicit state passing.
External collaborators (the Caido SDK: request store, dispatcher, URL parser)
are passed in as oracle arguments.
-/

namespace Authify

/-- Character strings modelled as lists of characters (JS strings, ASCII fragment;
JS UTF-16 code units beyond ASCII are not needed by any claim). -/
abbrev Str := List Char

/-- Coerce a Lean string literal to the character-list representation. -/
def chars (s : String) : Str := s.data

/-- Whitespace test: the ASCII fragment of the JS regex class `\s` and of the
whitespace set recognized by JS `String.trim`. -/
def isWsChar (c : Char) : Bool :=
  c = ' ' || c = '\t' || c = '\n' || c = '\r' || c = Char.ofNat 11 || c = Char.ofNat 12

/-- JS `String.prototype.trim` (ASCII fragment): drop whitespace from both ends. -/
def trimStr (s : Str) : Str :=
  ((s.dropWhile isWsChar).reverse.dropWhile isWsChar).reverse

/-- JS `str.split(sep)` for a one-character separator: `"".split` yields `[""]`,
a trailing separator yields a trailing empty piece. -/
def splitOnChar (sep : Char) : Str → List Str
  | [] => [[]]
  | c :: rest =>
    if c = sep then [] :: splitOnChar sep rest
    else
      match splitOnChar sep rest with
      | [] => [[c]]
      | h :: t => (c :: h) :: t

/-- JS `str.split(/\r?\n/)`: a break at each `"\r\n"` or bare `"\n"`
(a `'\r'` not followed by `'\n'` stays inside its line). -/
def splitLinesRN : Str → List Str
  | [] => [[]]
  | '\r' :: '\n' :: rest => [] :: splitLinesRN rest
  | '\n' :: rest => [] :: splitLinesRN rest
  | c :: rest =>
    match splitLinesRN rest with
    | [] => [[c]]
    | h :: t => (c :: h) :: t

/-- JS `Array.prototype.join(sep)` on an array of strings. -/
def joinWith (sep : Str) : List Str → Str
  | [] => []
  | [x] => x
  | x :: xs => x ++ sep ++ joinWith sep xs

/-- JS `String.prototype.toLowerCase` (ASCII fragment). -/
def lowerStr (s : Str) : Str := s.map Char.toLower

/-- Decimal digit test, the JS regex class `\d`. -/
def isDigitChar (c : Char) : Bool := '0' ≤ c && c ≤ '9'

/-- Numeric value of a string of decimal digits. -/
def natOfDigits (ds : Str) : Nat := ds.foldl (fun a c => a * 10 + (c.toNat - '0'.toNat)) 0

/-- JS `parseInt(s, 10)`: skip leading whitespace, optional sign, then the longest
digit run; `none` models `NaN` (no digits found). -/
def jsParseInt (s : Str) : Option Int :=
  match s.dropWhile isWsChar with
  | '-' :: rest =>
    if (rest.takeWhile isDigitChar) = [] then none
    else some (-(natOfDigits (rest.takeWhile isDigitChar) : Int))
  | '+' :: rest =>
    if (rest.takeWhile isDigitChar) = [] then none
    else some ((natOfDigits (rest.takeWhile isDigitChar) : Int))
  | t =>
    if (t.takeWhile isDigitChar) = [] then none
    else some ((natOfDigits (t.takeWhile isDigitChar) : Int))

/-- JS `s.indexOf(c)` for one character, as an optional index. -/
def idxOfChar (c : Char) (s : Str) : Option Nat := s.findIdx? (· = c)

/-- Header-line split used throughout scopes.ts and auth-headers.ts: the first colon,
required at a positive index; name and value are trimmed. -/
def parseHeaderLine (line : Str) : Option (Str × Str) :=
  match idxOfChar ':' line with
  | some i => if 0 < i then some (trimStr (line.take i), trimStr (line.drop (i + 1))) else none
  | none => none

/-- Blank-line test of utils.ts: the JS guard `line && line.trim() === ''` accepts
only a line that is nonempty yet whitespace-only; a truly empty line fails the
truthiness test `line &&` and is skipped. -/
def isBlankLineUtils (l : Str) : Bool := !l.isEmpty && (trimStr l).isEmpty

/-- Function extractResponseBody from utils.ts: split the raw text on `/\r?\n/`,
look for the first blank line in the sense of isBlankLineUtils, and join everything
after it with `"\r\n"`; empty input or no such line yields the empty body. -/
def extractResponseBody (raw : Str) : Str :=
  if raw = [] then []
  else
    let lines := splitLinesRN raw
    match lines.findIdx? isBlankLineUtils with
    | none => []
    | some i =>
      if lines.length ≤ i + 1 then []
      else joinWith (chars "\r\n") (lines.drop (i + 1))

/-- Line scan of getLocationHeader from utils.ts: skip truly empty lines
(`if (!line) continue`), stop at a nonempty whitespace-only line, and return the
trimmed text after a case-insensitive `location:` on the first matching line. -/
def getLocationHeaderLines : List Str → Option Str
  | [] => none
  | line :: rest =>
    if line = [] then getLocationHeaderLines rest
    else if trimStr line = [] then none
    else
      if (chars "location:").isPrefixOf (lowerStr (trimStr line)) then
        some (trimStr ((trimStr line).drop 9))
      else getLocationHeaderLines rest

/-- Function getLocationHeader from utils.ts. -/
def getLocationHeader (raw : Str) : Option Str :=
  if raw = [] then none else getLocationHeaderLines (splitLinesRN raw)

/-- Platform response object, reduced to the accessors the backend uses:
`getCode()`, `getHeaders()` (name to value-array map) and `getRaw()?.toText() ?? ""`. -/
structure RespObj where
  code : Int
  headersList : List (Str × List Str)
  raw : Str
deriving DecidableEq, Repr

/-- Header-map search of getResponseContentLength: the first entry whose lowercased
name is `content-length`, carrying a nonempty value array with a truthy (nonempty)
first value that parseInt accepts; entries failing any condition are passed over. -/
def findContentLengthHeader : List (Str × List Str) → Option Int
  | [] => none
  | (name, vals) :: rest =>
    if lowerStr name = chars "content-length" then
      match vals with
      | v :: _ =>
        if v ≠ [] then
          match jsParseInt v with
          | some n => some n
          | none => findContentLengthHeader rest
        else findContentLengthHeader rest
      | [] => findContentLengthHeader rest
    else findContentLengthHeader rest

/-- Attempt of the regex `content-length:\s*(\d+)` (flag `i`) anchored at the start
of `s`: the literal label case-insensitively, then whitespace, then a nonempty
greedy digit run. -/
def clMatchAt (s : Str) : Option Nat :=
  if (chars "content-length:").isPrefixOf (lowerStr s) then
    let ds := ((s.drop 15).dropWhile isWsChar).takeWhile isDigitChar
    if ds = [] then none else some (natOfDigits ds)
  else none

/-- First match of the regex `content-length:\s*(\d+)` anywhere in `s`
(JS `String.match` finds the leftmost position where the whole pattern matches). -/
def clScan : Str → Option Nat
  | [] => none
  | c :: rest =>
    match clMatchAt (c :: rest) with
    | some n => some n
    | none => clScan rest

/-- Function getResponseContentLength from utils.ts: 0 for an empty raw text; else
the response object's suitable `Content-Length` header if one exists; else the first
`content-length:` regex match anywhere in the raw text; else the length of the text
joined with `"\r\n"` after the first isBlankLineUtils line, 0 when there is none. -/
def getResponseContentLength (resp : Option RespObj) (raw : Str) : Int :=
  if raw = [] then 0
  else
    match (match resp with
           | some r => findContentLengthHeader r.headersList
           | none => none) with
    | some n => n
    | none =>
      match clScan raw with
      | some n => (n : Int)
      | none =>
        let lines := splitLinesRN raw
        match lines.findIdx? isBlankLineUtils with
        | none => 0
        | some i => ((joinWith (chars "\r\n") (lines.drop (i + 1))).length : Int)

/-- Comparison verdict of the Comparator. -/
inductive Verdict where
  | same
  | different
  | similar
  | unknown
deriving DecidableEq, Repr

/-- Scan of `.replace(/\s+/g, ' ')`: the flag records whether the previous character
belonged to a whitespace run, so the first character of each run emits one space and
the rest of the run is dropped. -/
def collapseWsAux : Bool → Str → Str
  | _, [] => []
  | prevWs, c :: rest =>
    if isWsChar c then
      if prevWs then collapseWsAux true rest else ' ' :: collapseWsAux true rest
    else c :: collapseWsAux false rest

/-- JS `.replace(/\s+/g, ' ')`: collapse every whitespace run to one space. -/
def collapseWs (s : Str) : Str := collapseWsAux false s

/-- Body normalization of compareResponses: collapse whitespace runs, then trim. -/
def normalizeWs (s : Str) : Str := trimStr (collapseWs s)

/-- Function compareResponses from utils.ts. -/
def compareResponses (originalCode : Int) (originalLength : Int) (modifiedCode : Int)
    (modifiedLength : Int) (originalRespRaw : Str) (modifiedRespRaw : Str) : Verdict :=
  if originalCode ≠ modifiedCode then
    if 300 ≤ originalCode ∧ originalCode < 400 ∧ 300 ≤ modifiedCode ∧ modifiedCode < 400 then
      match getLocationHeader originalRespRaw, getLocationHeader modifiedRespRaw with
      | some a, some b => if a ≠ [] ∧ b ≠ [] ∧ a = b then Verdict.same else Verdict.different
      | _, _ => Verdict.different
    else Verdict.different
  else
    let oc := normalizeWs (extractResponseBody originalRespRaw)
    let mc := normalizeWs (extractResponseBody modifiedRespRaw)
    if originalLength = modifiedLength ∧ oc = mc then Verdict.same
    else if originalLength = modifiedLength ∧ oc ≠ mc then Verdict.similar
    else Verdict.different

/-- Spec reading of a blank line (§4.1): a line that is empty after trimming,
including a truly empty line. -/
def specBlankLine (l : Str) : Bool := (trimStr l).isEmpty

/-- Spec reading of the body portion of a raw message (§4.3 rule 2): everything
after the first blank line in the sense of specBlankLine. -/
def specResponseBody (raw : Str) : Str :=
  let lines := splitLinesRN raw
  match lines.findIdx? specBlankLine with
  | none => []
  | some i => joinWith (chars "\r\n") (lines.drop (i + 1))

/-- Substitution rule of match-replace.ts. The field standing for the source's
`match` property is named matchStr because `match` is a Lean keyword. -/
structure MatchReplaceRule where
  id : Str
  matchStr : Str
  replace : Str
  enabled : Bool
deriving DecidableEq, Repr

/-- Expansion of a JS string-replacement template at one match site (ECMAScript
GetSubstitution): a doubled dollar gives one dollar, dollar-ampersand the matched
text, dollar-backquote the part of the subject before the match, dollar-apostrophe
the part after it; with zero capture groups every other dollar sequence is literal,
as is a dollar standing last. -/
def expandDollar (matched before after : Str) : Str → Str
  | [] => []
  | c :: rest =>
    if c = '$' then
      match rest with
      | [] => ['$']
      | d :: rest2 =>
        if d = '$' then '$' :: expandDollar matched before after rest2
        else if d = '&' then matched ++ expandDollar matched before after rest2
        else if d = Char.ofNat 96 then before ++ expandDollar matched before after rest2
        else if d = Char.ofNat 39 then after ++ expandDollar matched before after rest2
        else '$' :: expandDollar matched before after (d :: rest2)
    else c :: expandDollar matched before after rest

/-- Scan of a global literal-pattern replacement over `orig` from position `i`: where
the pattern matches, consume it and emit the expanded replacement; elsewhere copy one
character. The fuel argument keeps the recursion structural; jsReplaceAll supplies
enough fuel for the whole subject. -/
def replAllFrom (orig pat repl : Str) : Nat → Nat → Str
  | 0, _ => []
  | fuel + 1, i =>
    if orig.length ≤ i then []
    else if pat ≠ [] ∧ pat.isPrefixOf (orig.drop i) then
      expandDollar pat (orig.take i) (orig.drop (i + pat.length)) repl
        ++ replAllFrom orig pat repl fuel (i + pat.length)
    else (orig.drop i).headD ' ' :: replAllFrom orig pat repl fuel (i + 1)

/-- JS `s.replace(new RegExp(escapeRegExp(pat), 'g'), repl)` from match-replace.ts:
escapeRegExp escapes every regex metacharacter, so this is global replacement of
literal occurrences of `pat` (leftmost, non-overlapping), each occurrence replaced
by the GetSubstitution expansion of `repl`. Callers never pass an empty pattern
(rules with whitespace-only match text are filtered out); for completeness the
empty pattern returns the subject unchanged. -/
def jsReplaceAll (s pat repl : Str) : Str :=
  if pat = [] then s else replAllFrom s pat repl (s.length + 1) 0

/-- Modelled from the spec for comparison (§4.2): the same literal global replacement
but inserting the replacement text verbatim, with no dollar expansion. -/
def literalReplFrom (orig pat repl : Str) : Nat → Nat → Str
  | 0, _ => []
  | fuel + 1, i =>
    if orig.length ≤ i then []
    else if pat ≠ [] ∧ pat.isPrefixOf (orig.drop i) then
      repl ++ literalReplFrom orig pat repl fuel (i + pat.length)
    else (orig.drop i).headD ' ' :: literalReplFrom orig pat repl fuel (i + 1)

/-- Verbatim counterpart of jsReplaceAll, following the spec's words. -/
def literalReplaceAll (s pat repl : Str) : Str :=
  if pat = [] then s else literalReplFrom s pat repl (s.length + 1) 0

/-- Function applyMatchReplaceRules from match-replace.ts; the module-global
storedMatchReplaceRules is passed explicitly. An empty or whitespace-only body is
returned unchanged; otherwise the enabled rules with non-whitespace match text are
folded over the body in list order. -/
def applyMatchReplaceRules (body : Str) (rules : List MatchReplaceRule) : Str :=
  if body = [] ∨ trimStr body = [] then body
  else
    (rules.filter fun r => r.enabled && !(trimStr r.matchStr).isEmpty).foldl
      (fun b r => jsReplaceAll b r.matchStr r.replace) body

/-- Per-character effect of the pattern translation in matchesPattern (scopes.ts):
`.replace(/\./g, '\\.').replace(/\*/g, '.*').replace(/\?/g, '.')`. The three passes
run sequentially, but later passes never touch text an earlier pass produced (the
dots introduced for star and question mark are no longer subject to escaping), so
the composite equals this per-character expansion. -/
def translateChar (c : Char) : Str :=
  if c = '.' then ['\\', '.']
  else if c = '*' then ['.', '*']
  else if c = '?' then ['.']
  else [c]

/-- Full translation of a scope pattern into JS regex source text. -/
def translatePattern (p : Str) : Str := p.foldr (fun c acc => translateChar c ++ acc) []

/-- Atom of the regex fragment arising from translated scope patterns. -/
inductive RAtom where
  | lit (c : Char)
  | dot
deriving DecidableEq, Repr

/-- Quantifier of the regex fragment. -/
inductive Quant where
  | one
  | star
  | plus
deriving DecidableEq, Repr

/-- Characters of JS regex source this embedding refuses to model (groups, classes,
alternation, anchors, lazy quantifiers): a pattern producing them is treated as a
regex-construction failure. Translated scope patterns over the safe glob alphabet
never produce them. -/
def jsMetaRefused (c : Char) : Bool :=
  c = '(' || c = ')' || c = '[' || c = ']' || c = Char.ofNat 123 || c = Char.ofNat 125 ||
    c = '|' || c = '^' || c = '$' || c = '?'

/-- Optional postfix quantifier peek of the regex parser. -/
def quantSplit : Str → Quant × Str
  | [] => (Quant.one, [])
  | c :: r2 =>
    if c = '*' then (Quant.star, r2)
    else if c = '+' then (Quant.plus, r2)
    else (Quant.one, c :: r2)

/-- Parser for the regex fragment: an escape of a dot or backslash, a bare dot, or a
plain literal character, each with an optional star or plus; a quantifier with no
preceding atom (as JS raises for `a*+`) and every refused metacharacter yield none,
modelling a RegExp construction error. Fuel is structural; one unit per atom is
ample since every atom consumes at least one character. -/
def parseRegexFuel : Nat → Str → Option (List (RAtom × Quant))
  | 0, _ => none
  | _ + 1, [] => some []
  | fuel + 1, c :: rest =>
    let atomRem : Option (RAtom × Str) :=
      if c = '\\' then
        match rest with
        | [] => none
        | d :: rest2 => if d = '.' ∨ d = '\\' then some (RAtom.lit d, rest2) else none
      else if c = '.' then some (RAtom.dot, rest)
      else if jsMetaRefused c ∨ c = '*' ∨ c = '+' then none
      else some (RAtom.lit c, rest)
    match atomRem with
    | none => none
    | some (a, rem) =>
      (parseRegexFuel fuel (quantSplit rem).2).map fun items => (a, (quantSplit rem).1) :: items

/-- Wrapper supplying sufficient fuel for the whole regex source. -/
def parseRegex (s : Str) : Option (List (RAtom × Quant)) := parseRegexFuel (s.length + 1) s

/-- Character test of one regex atom; a JS dot does not match line terminators. -/
def atomMatches : RAtom → Char → Bool
  | RAtom.lit c, d => c = d
  | RAtom.dot, d => !(d = '\n' || d = '\r')

/-- Anchored backtracking matcher for the regex fragment, as `new RegExp` with `^...$`
then `.test` behaves on it. Every call either drops an item for good or consumes one
subject character, so recursion depth is at most subject length plus item count plus
one; the wrapper in matchesPattern supplies more fuel than that, making the fuel-out
branch unreachable. -/
def matchItemsFuel : Nat → List (RAtom × Quant) → Str → Bool
  | 0, _, _ => false
  | _ + 1, [], s => s.isEmpty
  | fuel + 1, (a, Quant.one) :: items, s =>
    match s with
    | [] => false
    | c :: cs => atomMatches a c && matchItemsFuel fuel items cs
  | fuel + 1, (a, Quant.star) :: items, s =>
    matchItemsFuel fuel items s ||
      (match s with
       | [] => false
       | c :: cs => atomMatches a c && matchItemsFuel fuel ((a, Quant.star) :: items) cs)
  | fuel + 1, (a, Quant.plus) :: items, s =>
    match s with
    | [] => false
    | c :: cs => atomMatches a c && matchItemsFuel fuel ((a, Quant.star) :: items) cs

/-- Function matchesPattern from scopes.ts: translate the pattern, build the anchored
regex, and test the hostname; none models a RegExp construction throw, which the
enclosing try/catch of isUrlInScope turns into an overall false. -/
def matchesPattern (hostname pattern : Str) : Option Bool :=
  match parseRegex (translatePattern pattern) with
  | none => none
  | some items => some (matchItemsFuel (hostname.length + items.length + 2) items hostname)

/-- Scope structure of scopes.ts: allowlist and denylist of hostname patterns. -/
structure ScopeStructure where
  allowlist : List Str
  denylist : List Str
deriving DecidableEq, Repr

/-- Sequential pattern-list scan of the two loops in isUrlInScope: stops at the first
match; none propagates a construction throw. -/
def anyPatternMatches (hostname : Str) : List Str → Option Bool
  | [] => some false
  | p :: ps =>
    match matchesPattern hostname (lowerStr p) with
    | none => none
    | some true => some true
    | some false => anyPatternMatches hostname ps

/-- Function isUrlInScope from scopes.ts, taken after the platform URL parser has
produced the hostname (URL parsing is an external collaborator; a parse failure also
lands in the catch). No selected scope structure allows everything; a denylist match
rejects; an empty allowlist then accepts; otherwise only an allowlist match accepts.
Any exception inside the try yields false. -/
def isUrlInScope (scope : Option ScopeStructure) (hostname : Str) : Bool :=
  match scope with
  | none => true
  | some sc =>
    match anyPatternMatches (lowerStr hostname) sc.denylist with
    | none => false
    | some true => false
    | some false =>
      if sc.allowlist.isEmpty then true
      else
        match anyPatternMatches (lowerStr hostname) sc.allowlist with
        | none => false
        | some true => true
        | some false => false

/-- Modelled from the spec for comparison (§4.4 glob syntax): star is any run of
characters, question mark exactly one character, every other character literal,
anchored over the whole hostname. Fueled in step with matchItemsFuel. -/
def globMatchFuel : Nat → Str → Str → Bool
  | 0, _, _ => false
  | _ + 1, [], s => s.isEmpty
  | fuel + 1, p :: ps, s =>
    if p = '*' then
      globMatchFuel fuel ps s ||
        (match s with
         | [] => false
         | _ :: cs => globMatchFuel fuel (p :: ps) cs)
    else if p = '?' then
      match s with
      | [] => false
      | _ :: cs => globMatchFuel fuel ps cs
    else
      match s with
      | [] => false
      | d :: ds => (p = d) && globMatchFuel fuel ps ds

/-- Spec glob match with the same fuel budget as the code-side matcher. -/
def specGlobMatch (pattern hostname : Str) : Bool :=
  globMatchFuel (hostname.length + pattern.length + 2) pattern hostname

/-- Modelled from the spec for comparison: the scope decision of §4.4 check 3 with
spec glob matching. -/
def specScopeAccept (scope : Option ScopeStructure) (hostname : Str) : Bool :=
  match scope with
  | none => true
  | some sc =>
    if sc.denylist.any fun p => specGlobMatch (lowerStr p) (lowerStr hostname) then false
    else if sc.allowlist.isEmpty then true
    else sc.allowlist.any fun p => specGlobMatch (lowerStr p) (lowerStr hostname)

/-- Glob alphabet on which the code's regex translation coincides with spec glob
semantics: the wildcards star and question mark and the dot are handled by the
translation (question mark becomes a regex dot before parsing, so its presence in
the refused set is irrelevant) and are safe; every other character is safe unless
the dot-only escaping passes it through with a JS regex meaning (the backslash, the
quantifier plus, or a refused metacharacter). -/
def safeGlobChar (c : Char) : Bool :=
  c = '?' || !(jsMetaRefused c || c = '\\' || c = '+')

/-- Item sequence the translation of a safe glob pattern parses to: star becomes an
unbounded run of any character, question mark one any-character, anything else a
literal. -/
def globItems (p : Str) : List (RAtom × Quant) :=
  p.map fun c =>
    if c = '*' then (RAtom.dot, Quant.star)
    else if c = '?' then (RAtom.dot, Quant.one)
    else (RAtom.lit c, Quant.one)

/-- JS string-keyed record (object literal used as a map, as the header objects in
scopes.ts and auth-headers.ts are): assigning an existing key overwrites in place,
keeping its first-insertion position; a new key is appended. Header names are not
integer-like strings, so JS integer-key reordering does not arise and is not
modelled. Key comparison is exact, case-SENSITIVE. -/
def recordSet (m : List (Str × Str)) (k v : Str) : List (Str × Str) :=
  if m.any fun p => p.1 = k then
    m.map fun p => if p.1 = k then (k, v) else p
  else m ++ [(k, v)]

/-- JS record read `m[k]` as an option. -/
def recordGet (m : List (Str × Str)) (k : Str) : Option Str :=
  (m.find? fun p => p.1 = k).map Prod.snd

/-- Decoded request of modifyAndResendRequest (scopes.ts) and applyHeadersToReplay
(auth-headers.ts): the raw first line, the header record, and the body. -/
structure ParsedRequest where
  requestLine : Str
  headers : List (Str × Str)
  body : Str
deriving DecidableEq, Repr

/-- Separator search of the raw-request parsers: the first line at index one or
beyond that is empty or whitespace-only (`!line || line.trim() === ''`); when none
exists, every line after the request line counts as a header. -/
def headerEndIndex (lines : List Str) : Nat :=
  match (lines.drop 1).findIdx? (fun l => l.isEmpty || (trimStr l).isEmpty) with
  | some i => i + 1
  | none => lines.length

/-- Header-collection loop of the raw-request parsers: lines strictly between the
request line and the separator, skipping falsy (empty) lines, each parsed on its
trimmed text at the first positive-index colon and assigned with record semantics. -/
def collectHeaders (lines : List Str) (hEnd : Nat) : List (Str × Str) :=
  ((lines.drop 1).take (hEnd - 1)).foldl
    (fun m line =>
      if line = [] then m
      else
        match parseHeaderLine (trimStr line) with
        | some kv => recordSet m kv.1 kv.2
        | none => m)
    []

/-- Decoding part of modifyAndResendRequest: split the raw text on LF, find the
separator, collect the header record, and join the lines after the separator with
LF as the body (empty when no separator was found). -/
def decodeRequest (raw : Str) : ParsedRequest :=
  { requestLine := (splitOnChar '\n' raw).headD []
    headers := collectHeaders (splitOnChar '\n' raw) (headerEndIndex (splitOnChar '\n' raw))
    body :=
      if headerEndIndex (splitOnChar '\n' raw) < (splitOnChar '\n' raw).length then
        joinWith ['\n'] ((splitOnChar '\n' raw).drop (headerEndIndex (splitOnChar '\n' raw) + 1))
      else [] }

/-- Auth-header parsing of modifyAndResendRequest: split the stored text on LF, keep
lines whose trim is nonempty, split each at its first colon (positive index, located
on the untrimmed line), and collect with record semantics. -/
def parseAuthHeaders (authText : Str) : List (Str × Str) :=
  ((splitOnChar '\n' authText).filter fun l => !(trimStr l).isEmpty).foldl
    (fun m line =>
      match idxOfChar ':' line with
      | some i =>
        if 0 < i then recordSet m (trimStr (line.take i)) (trimStr (line.drop (i + 1)))
        else m
      | none => m)
    []

/-- Header merge of modifyAndResendRequest and applyHeadersToReplay: spread the
original record, then assign each auth entry in order (exact-key, case-sensitive
record update). -/
def mergeAuthHeaders (original auth : List (Str × Str)) : List (Str × Str) :=
  auth.foldl (fun m kv => recordSet m kv.1 kv.2) original

/-- Re-encoding of the modified request: the request line, CRLF, each header as
name, colon, space, value, CRLF in record order, a blank line, then the body if it
is nonempty. -/
def encodeRequest (p : ParsedRequest) : Str :=
  p.requestLine ++ chars "\r\n"
    ++ (p.headers.foldr (fun kv acc => kv.1 ++ chars ": " ++ kv.2 ++ chars "\r\n" ++ acc) [])
    ++ chars "\r\n"
    ++ (if p.body ≠ [] then p.body else [])

/-- Tokens of a raw message's request line under JS split-on-space
(`requestLine.split(' ')`); the method is token zero and the path token one. -/
def requestTokens (raw : Str) : List Str :=
  splitOnChar ' ' ((splitOnChar '\n' raw).headD [])

/-- Modelled from the spec for comparison (§4.1): all header lines up to the first
line that is empty after trimming, split at the first positive-index colon, kept
with multiplicity and in order; malformed lines are skipped. -/
def specHeaderPairs (raw : Str) : List (Str × Str) :=
  ((splitOnChar '\n' raw).drop 1).take (headerEndIndex (splitOnChar '\n' raw) - 1)
    |>.foldr
      (fun line acc =>
        match parseHeaderLine (trimStr line) with
        | some kv => kv :: acc
        | none => acc) []

/-- The override view of one merged header entry: the auth record's value wins on an
exact key match, anything else is untouched. -/
def overrideWith (a : List (Str × Str)) (p : Str × Str) : Str × Str :=
  match recordGet a p.1 with
  | some v => (p.1, v)
  | none => p

/-- Shape invariant of header entries produced by the request decoder: the name is
nonempty, both parts are trim-invariant, the name is colon-free, and neither part
contains a line feed. -/
def headerWF (kv : Str × Str) : Prop :=
  kv.1 ≠ [] ∧ trimStr kv.1 = kv.1 ∧ trimStr kv.2 = kv.2 ∧ ':' ∉ kv.1 ∧ '\n' ∉ kv.1 ∧ '\n' ∉ kv.2

/-- Result record of modifyAndResendRequest (scopes.ts): status code and content
length of the re-sent response, the re-encoded request, the raw modified response
and the comparison verdict. -/
structure ModifiedResult where
  code : Int
  length : Int
  modifiedReqRaw : Str
  modifiedRespRaw : Str
  comparison : Verdict
deriving DecidableEq, Repr

/-- Function modifyAndResendRequest from scopes.ts. The network send is abstracted
into the oracle `dispatch` (none models both a failed send and a result without a
response); the RequestSpec constructor is assumed available, and populating the spec
object has no observable effect here beyond the dispatched response. The guard on
`lines.length < 1` is kept although a JS split never returns an empty array. -/
def modifyAndResendRequest (authText : Str) (dispatch : Option RespObj)
    (originalReqRaw originalRespRaw : Str) : ModifiedResult :=
  if trimStr authText = [] then ⟨0, 0, [], [], Verdict.unknown⟩
  else if (splitOnChar '\n' originalReqRaw).length < 1 then ⟨0, 0, [], [], Verdict.unknown⟩
  else
    let p := decodeRequest originalReqRaw
    let modifiedHeaders := mergeAuthHeaders p.headers (parseAuthHeaders authText)
    let modifiedReqRaw := encodeRequest ⟨p.requestLine, modifiedHeaders, p.body⟩
    if (splitOnChar ' ' p.requestLine).length < 3 then
      ⟨0, 0, modifiedReqRaw, [], Verdict.unknown⟩
    else
      let host :=
        match recordGet modifiedHeaders (chars "Host") with
        | some v => if v = [] then recordGet modifiedHeaders (chars "host") else some v
        | none => recordGet modifiedHeaders (chars "host")
      match host with
      | none => ⟨0, 0, modifiedReqRaw, [], Verdict.unknown⟩
      | some hv =>
        if hv = [] then ⟨0, 0, modifiedReqRaw, [], Verdict.unknown⟩
        else
          match dispatch with
          | none => ⟨0, 0, modifiedReqRaw, [], Verdict.unknown⟩
          | some resp =>
            let modifiedLength := getResponseContentLength (some resp) resp.raw
            let originalCode : Int :=
              match splitOnChar '\n' originalRespRaw with
              | [] => 0
              | l0 :: _ =>
                if l0 = [] then 0
                else
                  let tok := ((splitOnChar ' ' l0).get? 1).getD []
                  (jsParseInt (if tok = [] then chars "0" else tok)).getD 0
            let originalLength := getResponseContentLength none originalRespRaw
            ⟨resp.code, modifiedLength, modifiedReqRaw, resp.raw,
              compareResponses originalCode originalLength resp.code modifiedLength
                originalRespRaw resp.raw⟩

/-- Row of the captured-traffic table (the Row type of scopes.ts). -/
structure Row where
  id : Str
  method : Str
  hostname : Str
  path : Str
  code : Int
  length : Int
  modifiedCode : Int
  modifiedLength : Int
  reqRaw : Str
  respRaw : Str
  modifiedReqRaw : Str
  modifiedRespRaw : Str
  reqSpecRaw : Str
  comparison : Verdict
deriving DecidableEq, Repr

/-- Module state of scopes.ts: the enabled flag, the ledger (newest first), the
recursion-guard ID set and the pending-response queue. JS Sets are modelled as
insertion-ordered duplicate-free lists. -/
structure PluginState where
  isPluginEnabled : Bool
  capturedTraffic : List Row
  modifiedRequestIds : List Str
  pendingResponseQueue : List Str
deriving DecidableEq, Repr

/-- JS Set.add: append when absent. -/
def setAdd (s : List Str) (x : Str) : List Str :=
  if x ∈ s then s else s ++ [x]

/-- JS Set.delete: drop the element. -/
def setDelete (s : List Str) (x : Str) : List Str :=
  s.filter fun y => y ≠ x

/-- Ledger insertion of handleInterceptedResponse: prepend the row, then cut the
list back to 500 entries when it exceeds the cap. -/
def insertIntercepted (row : Row) (traffic : List Row) : List Row :=
  if 500 < (row :: traffic).length then (row :: traffic).take 500 else row :: traffic

/-- Ledger insertion of processRequestFromHistory: prepend only, with no cap. -/
def insertFromHistory (row : Row) (traffic : List Row) : List Row :=
  row :: traffic

/-- Result shape of the backend command handlers: kind Ok, or Error with a message. -/
inductive JsResult where
  | ok
  | error (msg : String)
deriving DecidableEq, Repr

/-- Platform request object, reduced to the accessors the backend reads: the ID (as
its interpolated string), method, URL, the parsed hostname and pathname-plus-search
(none when the URL constructor throws), the header list of getHeaders() with first
values, the raw text (empty when getRaw is unavailable) and the spec raw form. -/
structure ReqObj where
  id : Str
  method : Str
  url : Str
  urlParts : Option (Str × Str)
  headersList : List (Str × Str)
  raw : Str
  specRaw : Str
deriving DecidableEq, Repr

/-- Result of a history lookup (sdk.requests.get): the whole result may be absent
(not found), and either component may be missing. -/
structure RequestResponse where
  request : Option ReqObj
  response : Option RespObj
deriving DecidableEq, Repr

/-- Function processRequestFromHistory from scopes.ts, with the history lookup and
the network send as oracle arguments. It reads neither the enabled flag nor any
self-generated-request filter: after the existence and configuration checks it
always runs the modify-and-resend chain, prepends the row with no cap, and adds the
ID to the recursion guard. Error messages are abbreviated. -/
def processRequestFromHistory (fetch : Option RequestResponse) (authText : Str)
    (dispatch : Option RespObj) (s : PluginState) : JsResult × PluginState :=
  match fetch with
  | none => (JsResult.error "Request not found in HTTP history", s)
  | some rr =>
    match rr.request with
    | none => (JsResult.error "Request object not found", s)
    | some req =>
      match rr.response with
      | none => (JsResult.error "Response not found for this request", s)
      | some resp =>
        if trimStr authText = [] then
          (JsResult.error "No authentication headers configured", s)
        else if req.raw = [] ∨ resp.raw = [] then
          (JsResult.error "Could not retrieve raw request/response data", s)
        else
          let result := modifyAndResendRequest authText dispatch req.raw resp.raw
          let hp := match req.urlParts with
            | some v => v
            | none => (chars "Invalid URL", req.url)
          let row : Row :=
            { id := req.id, method := req.method, hostname := hp.1, path := hp.2,
              code := resp.code,
              length := getResponseContentLength (some resp) resp.raw,
              modifiedCode := result.code, modifiedLength := result.length,
              reqRaw := req.raw, respRaw := resp.raw,
              modifiedReqRaw := result.modifiedReqRaw,
              modifiedRespRaw := result.modifiedRespRaw,
              reqSpecRaw := req.specRaw, comparison := result.comparison }
          (JsResult.ok,
            { s with
              capturedTraffic := insertFromHistory row s.capturedTraffic,
              modifiedRequestIds := setAdd s.modifiedRequestIds req.id })

/-- Inputs of the gate checks of processNewRequest that live outside these sources:
isPluginGeneratedRequest and shouldFilterRequest are defined in filter.ts, which is
not among the sources, and sdk.requests.inScope is platform code (none models a
thrown scope check, which the catch block turns into a rejection). -/
structure GateInputs where
  pluginGenerated : Bool
  filtered : Bool
  inScope : Option Bool
deriving DecidableEq, Repr

/-- Function processNewRequest from scopes.ts: gate checks, URL parsing, the
pending-queue add when the response is missing or raw-empty, then the modification
block guarded by the enabled flag, the configured auth text and the recursion-guard
set. -/
def processNewRequest (gates : GateInputs) (selectedScope authText : Str)
    (dispatch : Option RespObj) (req : ReqObj) (resp : Option RespObj)
    (s : PluginState) : Option Row × PluginState :=
  if gates.pluginGenerated then (none, s)
  else if gates.filtered then (none, s)
  else if selectedScope ≠ [] ∧ trimStr selectedScope ≠ [] ∧ gates.inScope ≠ some true then
    (none, s)
  else
    let hp := match req.urlParts with
      | some v => v
      | none => (chars "Invalid URL", req.url)
    let code : Int := match resp with | some r => r.code | none => 0
    let respRaw : Str := match resp with | some r => r.raw | none => []
    let length := getResponseContentLength resp respRaw
    let s1 :=
      if resp = none ∨ respRaw = [] then
        { s with pendingResponseQueue := setAdd s.pendingResponseQueue req.id }
      else s
    if s1.isPluginEnabled = true ∧ trimStr authText ≠ [] ∧ req.id ∉ s1.modifiedRequestIds then
      let s2 := { s1 with modifiedRequestIds := setAdd s1.modifiedRequestIds req.id }
      let mr := modifyAndResendRequest authText dispatch req.raw respRaw
      (some { id := req.id, method := req.method, hostname := hp.1, path := hp.2,
              code := code, length := length,
              modifiedCode := mr.code, modifiedLength := mr.length,
              reqRaw := req.raw, respRaw := respRaw,
              modifiedReqRaw := mr.modifiedReqRaw, modifiedRespRaw := mr.modifiedRespRaw,
              reqSpecRaw := req.specRaw, comparison := mr.comparison }, s2)
    else
      (some { id := req.id, method := req.method, hostname := hp.1, path := hp.2,
              code := code, length := length,
              modifiedCode := 0, modifiedLength := 0,
              reqRaw := req.raw, respRaw := respRaw,
              modifiedReqRaw := [], modifiedRespRaw := [],
              reqSpecRaw := req.specRaw, comparison := Verdict.unknown }, s1)

/-- Function handleInterceptedResponse from scopes.ts: skip everything when the
plugin is disabled; otherwise run processNewRequest and, when it yields a row,
prepend it to the ledger under the 500-entry cap. -/
def handleInterceptedResponse (gates : GateInputs) (selectedScope authText : Str)
    (dispatch : Option RespObj) (req : ReqObj) (resp : Option RespObj)
    (s : PluginState) : PluginState :=
  if s.isPluginEnabled = false then s
  else
    match processNewRequest gates selectedScope authText dispatch req resp s with
    | (none, s1) => s1
    | (some row, s1) =>
      { s1 with capturedTraffic := insertIntercepted row s1.capturedTraffic }

/-- Row update of the reconciliation pass for a pending ID whose response arrived:
new code, length and raw response, with the comparison recomputed when a modified
response was recorded earlier. -/
def updateRowWith (row : Row) (resp : RespObj) : Row :=
  let code := resp.code
  let length := getResponseContentLength (some resp) resp.raw
  if row.modifiedRespRaw ≠ [] then
    { row with code := code, length := length, respRaw := resp.raw,
               comparison := compareResponses code length row.modifiedCode
                 row.modifiedLength resp.raw row.modifiedRespRaw }
  else { row with code := code, length := length, respRaw := resp.raw }

/-- Loop of processPendingResponses over the queue snapshot, carried over the
ledger, the live queue and the collected updated IDs: a not-found ID is deleted
from the queue at once; an ID with an arrived nonempty response updates the first
ledger row carrying it (if any) and is collected for removal after the loop. -/
def tickLoop (fetch : Str → Option RequestResponse) :
    List Str → List Row × List Str × List Str → List Row × List Str × List Str
  | [], acc => acc
  | i :: rest, (traffic, queue, updated) =>
    match fetch i with
    | none => tickLoop fetch rest (traffic, setDelete queue i, updated)
    | some rr =>
      match rr.response with
      | none => tickLoop fetch rest (traffic, queue, updated)
      | some resp =>
        if resp.raw = [] then tickLoop fetch rest (traffic, queue, updated)
        else
          match traffic.findIdx? fun row => row.id = i with
          | none => tickLoop fetch rest (traffic, queue, updated)
          | some ri =>
            match traffic.get? ri with
            | none => tickLoop fetch rest (traffic, queue, updated)
            | some row =>
              tickLoop fetch rest
                (traffic.set ri (updateRowWith row resp), queue, setAdd updated i)

/-- Function processPendingResponses from scopes.ts, with the per-ID history lookup
as the oracle `fetch`: skip when disabled or when the queue is empty; walk a
snapshot of the queue, then delete every collected ID from the queue. -/
def processPendingResponses (fetch : Str → Option RequestResponse)
    (s : PluginState) : PluginState :=
  if s.isPluginEnabled = false then s
  else if s.pendingResponseQueue.length = 0 then s
  else
    match tickLoop fetch s.pendingResponseQueue
        (s.capturedTraffic, s.pendingResponseQueue, []) with
    | (traffic1, queue1, updated1) =>
      { s with capturedTraffic := traffic1,
               pendingResponseQueue := updated1.foldl setDelete queue1 }

/-- Observation of one pending ID by a reconciliation pass: its history lookup
yields a result whose response is present with nonempty raw text. -/
def respArrived (fetch : Str → Option RequestResponse) (x : Str) : Prop :=
  ∃ rr resp, fetch x = some rr ∧ rr.response = some resp ∧ resp.raw ≠ []

/-- Modelled from the spec: the self-generated-request check of Gate check 1 lives
in filter.ts, which is absent from the sources, so this follows the spec text
(§4.4 check 1, a request is rejected when its header set exactly matches the
currently configured auth headers being injected): the configured text parses to a
nonempty auth record, and the request's header set and the auth record contain
exactly the same name-value pairs, names compared case-insensitively. -/
def isPluginGeneratedRequestSpec (reqHeaders : List (Str × Str)) (authText : Str) : Bool :=
  let auth := parseAuthHeaders authText
  !auth.isEmpty
    && (auth.all fun kv => reqHeaders.any fun kv2 =>
          (lowerStr kv2.1 == lowerStr kv.1) && (kv2.2 == kv.2))
    && (reqHeaders.all fun kv2 => auth.any fun kv =>
          (lowerStr kv2.1 == lowerStr kv.1) && (kv2.2 == kv.2))

/-- Concrete request ID used in the pipeline scenarios. -/
def mkId (n : Nat) : Str := [Char.ofNat (100 + n)]

/-- Gate inputs that pass every check. -/
def gatesOpen : GateInputs := ⟨false, false, some true⟩

/-- Concrete response used in the pipeline scenarios. -/
def demoResp : RespObj := { code := 200, headersList := [], raw := chars "OK" }

/-- Concrete response whose raw text is empty, leaving its request pending. -/
def demoRespEmpty : RespObj := { code := 200, headersList := [], raw := [] }

/-- Concrete request number n used in the pipeline scenarios. -/
def demoReq (n : Nat) : ReqObj :=
  { id := mkId n, method := chars "GET", url := chars "https://h/",
    urlParts := some (chars "h", chars "/"), headersList := [],
    raw := chars "R", specRaw := [] }

/-- Row that processNewRequest yields for demoReq n with demoResp when no auth text
is configured. -/
def demoRow (n : Nat) : Row :=
  { id := mkId n, method := chars "GET", hostname := chars "h", path := chars "/",
    code := 200, length := getResponseContentLength (some demoResp) (chars "OK"),
    modifiedCode := 0, modifiedLength := 0,
    reqRaw := chars "R", respRaw := chars "OK",
    modifiedReqRaw := [], modifiedRespRaw := [], reqSpecRaw := [],
    comparison := Verdict.unknown }

/-- Row that processNewRequest yields for demoReq 0 with demoRespEmpty when no auth
text is configured. -/
def demoRow0 : Row :=
  { id := mkId 0, method := chars "GET", hostname := chars "h", path := chars "/",
    code := 200, length := 0, modifiedCode := 0, modifiedLength := 0,
    reqRaw := chars "R", respRaw := [],
    modifiedReqRaw := [], modifiedRespRaw := [], reqSpecRaw := [],
    comparison := Verdict.unknown }

/-- Initial module state: enabled, with empty ledger, guard and queue. -/
def demoInit : PluginState :=
  { isPluginEnabled := true, capturedTraffic := [],
    modifiedRequestIds := [], pendingResponseQueue := [] }

/-- Final state of the pending-orphan scenario: demoReq 0 arrives with an empty-raw
response (queueing its ID), then 500 further requests arrive with responses and push
its row past the 500-entry cap. -/
def demoFinal : PluginState :=
  (List.range 500).foldl
    (fun st n => handleInterceptedResponse gatesOpen [] [] none (demoReq (n + 1))
      (some demoResp) st)
    (handleInterceptedResponse gatesOpen [] [] none (demoReq 0) (some demoRespEmpty)
      demoInit)

/-- Historical request of the Gate-check-1 scenario: its header set is exactly the
configured auth header. -/
def c5Req : ReqObj :=
  { id := chars "9", method := chars "GET", url := chars "https://h/",
    urlParts := some (chars "h", chars "/"),
    headersList := [(chars "X-Token", chars "abc")],
    raw := chars "GET / HTTP/1.1\nX-Token: abc\n\n", specRaw := [] }

/-- Disabled initial state of the Gate-check-1 scenario. -/
def c5State : PluginState :=
  { isPluginEnabled := false, capturedTraffic := [],
    modifiedRequestIds := [], pendingResponseQueue := [] }

/-- C1: with equal codes 200/200 and equal recorded lengths 3/3, the raw responses
carry bodies "AAA" and "BBB" after the first blank line, so the claim's rules demand
`similar`; compareResponses returns `same`, because its truthiness-guarded blank-line
search (`line && line.trim() === ''`) never recognizes the truly empty separator line,
leaving both extracted bodies empty. -/
theorem compareResponses_c1_failing_input :
    compareResponses 200 3 200 3 (chars "HTTP/1.1 200 OK\n\nAAA") (chars "HTTP/1.1 200 OK\n\nBBB")
      = Verdict.same
    ∧ specResponseBody (chars "HTTP/1.1 200 OK\n\nAAA") = chars "AAA"
    ∧ specResponseBody (chars "HTTP/1.1 200 OK\n\nBBB") = chars "BBB"
    ∧ normalizeWs (chars "AAA") ≠ normalizeWs (chars "BBB") := by
  decide

/-- C8: the raw response has no Content-Length header, and its body (text after the
first blank line) is the 17-character text "content-length: 7", so the claim demands
17; the code's unanchored regex scan finds "content-length: 7" inside the body and
returns 7. Moreover the body-length fallback returns 0 instead of 5 on a response
whose header/body separator is a truly empty line. -/
theorem getResponseContentLength_c8_failing_input :
    getResponseContentLength none (chars "HTTP/1.1 200 OK\n\ncontent-length: 7") = 7
    ∧ (specResponseBody (chars "HTTP/1.1 200 OK\n\ncontent-length: 7")).length = 17
    ∧ getResponseContentLength none (chars "HTTP/1.1 200 OK\n\nhello") = 0
    ∧ (specResponseBody (chars "HTTP/1.1 200 OK\n\nhello")).length = 5 := by
  decide

/-- Dollar-free replacement templates expand to themselves. -/
theorem expandDollar_no_dollar (m b a : Str) (t : Str) (h : '$' ∉ t) :
    expandDollar m b a t = t := by
  induction t with
  | nil => rfl
  | cons c rest ih =>
    have hc : ¬(c = '$') := fun hEq => h (by simp [hEq])
    have hrest : '$' ∉ rest := fun hm => h (List.mem_cons_of_mem _ hm)
    rw [expandDollar.eq_def]
    simp only [if_neg hc]
    exact congrArg (c :: ·) (ih hrest)

/-- With a dollar-free replacement, the dollar-aware scan agrees with the verbatim
scan at every fuel and position. -/
theorem replAllFrom_no_dollar (orig pat repl : Str) (h : '$' ∉ repl) :
    ∀ fuel i, replAllFrom orig pat repl fuel i = literalReplFrom orig pat repl fuel i := by
  intro fuel
  induction fuel with
  | zero => intro _; rfl
  | succ n ih =>
    intro i
    simp only [replAllFrom, literalReplFrom]
    split
    · rfl
    · split
      · rw [expandDollar_no_dollar _ _ _ _ h, ih]
      · rw [ih]

/-- With a dollar-free replacement, jsReplaceAll inserts the replacement verbatim. -/
theorem jsReplaceAll_no_dollar (s pat repl : Str) (h : '$' ∉ repl) :
    jsReplaceAll s pat repl = literalReplaceAll s pat repl := by
  unfold jsReplaceAll literalReplaceAll
  split
  · rfl
  · exact replAllFrom_no_dollar s pat repl h _ _

/-- All-whitespace strings trim to the empty string. -/
theorem trimStr_of_all_ws (s : Str) (h : ∀ c ∈ s, isWsChar c = true) : trimStr s = [] := by
  unfold trimStr
  have h1 : s.dropWhile isWsChar = [] := List.dropWhile_eq_nil_iff.mpr h
  rw [h1]
  rfl

/-- C6 (counterexample): the rule A to dollar-ampersand-dollar-ampersand applied to
"A" yields "AA", not the verbatim replacement text; a rule whose match text is a
single space (non-empty) is skipped because the code filters on trimmed match text;
and a whitespace-only body is returned untouched even though an enabled rule
matches inside it. Each contradicts the claim's universal description. -/
theorem applyMatchReplaceRules_c6_counterexample :
    applyMatchReplaceRules (chars "A")
      [⟨chars "1", chars "A", chars "$&$&", true⟩] = chars "AA"
    ∧ chars "AA" ≠ chars "$&$&"
    ∧ applyMatchReplaceRules (chars "a b")
      [⟨chars "1", chars " ", chars "X", true⟩] = chars "a b"
    ∧ applyMatchReplaceRules (chars " ")
      [⟨chars "1", chars " ", chars "X", true⟩] = chars " " := by
  decide

/-- C6 (amended): for a non-empty, non-whitespace-only body, exactly the enabled
rules with non-whitespace match text are applied in list order, each on the output
of the previous; each application replaces all literal occurrences of the match
text, inserting the replacement verbatim whenever it contains no dollar sign (JS
dollar sequences in the replacement are expanded, not literal); and the two rules
A-to-B then B-to-C applied to "A" yield "C". -/
theorem applyMatchReplaceRules_c6_amended :
    (∀ (body : Str) (rules : List MatchReplaceRule), body ≠ [] → trimStr body ≠ [] →
        applyMatchReplaceRules body rules =
          (rules.filter fun r => r.enabled && !(trimStr r.matchStr).isEmpty).foldl
            (fun b r => jsReplaceAll b r.matchStr r.replace) body)
    ∧ (∀ s pat repl : Str, '$' ∉ repl →
        jsReplaceAll s pat repl = literalReplaceAll s pat repl)
    ∧ applyMatchReplaceRules (chars "A")
        [⟨chars "1", chars "A", chars "B", true⟩, ⟨chars "2", chars "B", chars "C", true⟩]
        = chars "C" := by
  refine ⟨?_, fun s pat repl h => jsReplaceAll_no_dollar s pat repl h, by decide⟩
  intro body rules h1 h2
  unfold applyMatchReplaceRules
  rw [if_neg]
  intro hor
  rcases hor with h | h
  · exact h1 h
  · exact h2 h

/-- C6 (witness): the amended theorem applied at concrete inputs. -/
theorem applyMatchReplaceRules_c6_amended_witness :
    applyMatchReplaceRules (chars "hello")
        [⟨chars "1", chars "l", chars "L", true⟩] =
      (([⟨chars "1", chars "l", chars "L", true⟩] : List MatchReplaceRule).filter
          fun r => r.enabled && !(trimStr r.matchStr).isEmpty).foldl
        (fun b r => jsReplaceAll b r.matchStr r.replace) (chars "hello")
    ∧ jsReplaceAll (chars "xAy") (chars "A") (chars "B")
        = literalReplaceAll (chars "xAy") (chars "A") (chars "B") :=
  ⟨applyMatchReplaceRules_c6_amended.1 (chars "hello")
      [⟨chars "1", chars "l", chars "L", true⟩] (by decide) (by decide),
   applyMatchReplaceRules_c6_amended.2.1 (chars "xAy") (chars "A") (chars "B") (by decide)⟩

/-- C10: a body that is empty or consists only of whitespace characters is returned
completely unchanged by applyMatchReplaceRules, whatever the rule list. -/
theorem applyMatchReplaceRules_c10_whitespace_body (body : Str)
    (rules : List MatchReplaceRule) (h : ∀ c ∈ body, isWsChar c = true) :
    applyMatchReplaceRules body rules = body := by
  unfold applyMatchReplaceRules
  rw [if_pos (Or.inr (trimStr_of_all_ws body h))]

/-- C10 (witness): a whitespace-only body survives a rule that matches it. -/
theorem applyMatchReplaceRules_c10_witness :
    applyMatchReplaceRules (chars " \t ") [⟨chars "1", chars "\t", chars "X", true⟩]
      = chars " \t " :=
  applyMatchReplaceRules_c10_whitespace_body _ _ (by decide)

/-- Value of toLower on an upper-case ASCII letter. -/
theorem toLower_toNat_upper (c : Char) (h : c.toNat ≥ 65 ∧ c.toNat ≤ 90) :
    (Char.toLower c).toNat = c.toNat + 32 := by
  rw [Char.toLower]
  simp only [if_pos h]
  have hv : (c.toNat + 32).isValidChar := Or.inl (by have := h.2; omega)
  rw [Char.ofNat, dif_pos hv]
  simp only [Char.ofNatAux, Char.toNat, UInt32.toNat, BitVec.toNat_ofNat, BitVec.toNat_ofNatLt]

/-- Characters outside the upper-case letter range are fixed by toLower. -/
theorem toLower_eq_self (c : Char) (h : ¬(c.toNat ≥ 65 ∧ c.toNat ≤ 90)) :
    Char.toLower c = c := by
  rw [Char.toLower]
  simp only [if_neg h]

/-- Characters with code points in the lower-case letter range are glob-safe. -/
theorem safeGlobChar_of_toNat_range (d : Char) (h1 : 97 ≤ d.toNat) (h2 : d.toNat ≤ 122) :
    safeGlobChar d = true := by
  have key : ∀ ch : Char, ch.toNat < 97 ∨ 122 < ch.toNat → (d = ch) = False := by
    intro ch hch
    simp only [eq_iff_iff, iff_false]
    intro he
    subst he
    omega
  unfold safeGlobChar jsMetaRefused
  simp only [key '(' (by decide), key ')' (by decide), key '[' (by decide), key ']' (by decide),
    key (Char.ofNat 123) (by decide), key (Char.ofNat 125) (by decide), key '|' (by decide),
    key '^' (by decide), key '$' (by decide), key '?' (by decide), key '\\' (by decide),
    key '+' (by decide), decide_False, Bool.or_false, Bool.false_or, Bool.not_false]

/-- Lowercasing preserves glob safety. -/
theorem safeGlobChar_toLower (c : Char) (h : safeGlobChar c = true) :
    safeGlobChar (Char.toLower c) = true := by
  by_cases hc : c.toNat ≥ 65 ∧ c.toNat ≤ 90
  · refine safeGlobChar_of_toNat_range _ ?_ ?_ <;> rw [toLower_toNat_upper c hc] <;> omega
  · rw [toLower_eq_self c hc]
    exact h

/-- Lowercasing never produces a line terminator. -/
theorem toLower_not_newline (c : Char) (h : c ≠ '\n' ∧ c ≠ '\r') :
    Char.toLower c ≠ '\n' ∧ Char.toLower c ≠ '\r' := by
  by_cases hc : c.toNat ≥ 65 ∧ c.toNat ≤ 90
  · have hv := toLower_toNat_upper c hc
    obtain ⟨hc1, _⟩ := hc
    have h10 : ('\n').toNat = 10 := by decide
    have h13 : ('\r').toNat = 13 := by decide
    constructor
    · intro he
      rw [he, h10] at hv
      omega
    · intro he
      rw [he, h13] at hv
      omega
  · rw [toLower_eq_self c hc]
    exact h

/-- Unfolding of translatePattern on a cons. -/
theorem translatePattern_cons (c : Char) (ps : Str) :
    translatePattern (c :: ps) = translateChar c ++ translatePattern ps := rfl

/-- Componentwise reading of glob safety away from the question mark wildcard. -/
theorem safeGlobChar_spec (c : Char) (h : safeGlobChar c = true) (hq : c ≠ '?') :
    jsMetaRefused c = false ∧ c ≠ '\\' ∧ c ≠ '+' := by
  unfold safeGlobChar at h
  rw [Bool.or_eq_true] at h
  rcases h with h | h
  · exact absurd (of_decide_eq_true h) hq
  · simp only [Bool.not_eq_true', Bool.or_eq_false_iff, decide_eq_false_iff_not] at h
    exact ⟨h.1.1, h.1.2, h.2⟩

/-- Translations of safe glob patterns never start with a bare quantifier. -/
theorem quantSplit_translate (p : Str) (hp : ∀ c ∈ p, safeGlobChar c = true) :
    quantSplit (translatePattern p) = (Quant.one, translatePattern p) := by
  cases p with
  | nil => rfl
  | cons c ps =>
    rw [translatePattern_cons]
    unfold translateChar
    by_cases h1 : c = '.'
    · simp [h1, quantSplit]
    · by_cases h2 : c = '*'
      · simp [h1, h2, quantSplit]
      · by_cases h3 : c = '?'
        · simp [h1, h2, h3, quantSplit]
        · have hcs := safeGlobChar_spec c (hp c (List.mem_cons_self _ _)) h3
          simp [h1, h2, h3, quantSplit, hcs.2.2]

/-- Step of the regex parser on an escape sequence. -/
theorem parseRegexFuel_escape (f : Nat) (d : Char) (rest : Str) (hd : d = '.' ∨ d = '\\') :
    parseRegexFuel (f + 1) ('\\' :: d :: rest)
      = (parseRegexFuel f (quantSplit rest).2).map
          (fun items => (RAtom.lit d, (quantSplit rest).1) :: items) := by
  simp [parseRegexFuel, hd]

/-- Step of the regex parser on a bare dot. -/
theorem parseRegexFuel_dot (f : Nat) (rest : Str) :
    parseRegexFuel (f + 1) ('.' :: rest)
      = (parseRegexFuel f (quantSplit rest).2).map
          (fun items => (RAtom.dot, (quantSplit rest).1) :: items) := by
  simp [parseRegexFuel]

/-- Step of the regex parser on a plain literal character. -/
theorem parseRegexFuel_lit (f : Nat) (c : Char) (rest : Str) (h1 : c ≠ '\\') (h2 : c ≠ '.')
    (h3 : jsMetaRefused c = false) (h4 : c ≠ '*') (h5 : c ≠ '+') :
    parseRegexFuel (f + 1) (c :: rest)
      = (parseRegexFuel f (quantSplit rest).2).map
          (fun items => (RAtom.lit c, (quantSplit rest).1) :: items) := by
  simp [parseRegexFuel, h1, h2, h3, h4, h5]

/-- Unfolding of globItems on a cons. -/
theorem globItems_cons (c : Char) (ps : Str) :
    globItems (c :: ps) =
      (if c = '*' then (RAtom.dot, Quant.star)
       else if c = '?' then (RAtom.dot, Quant.one)
       else (RAtom.lit c, Quant.one)) :: globItems ps := rfl

/-- Evaluation of quantSplit on a leading star. -/
theorem quantSplit_star (r : Str) : quantSplit ('*' :: r) = (Quant.star, r) := by
  simp [quantSplit]

/-- Parsing the translation of a safe glob pattern yields its item sequence, with any
fuel beyond the translated length. -/
theorem parseRegexFuel_translate (p : Str) (hp : ∀ c ∈ p, safeGlobChar c = true) :
    ∀ fuel, (translatePattern p).length < fuel →
      parseRegexFuel fuel (translatePattern p) = some (globItems p) := by
  induction p with
  | nil =>
    intro fuel hf
    cases fuel with
    | zero => omega
    | succ f => rfl
  | cons c ps ih =>
    intro fuel hf
    have hps : ∀ x ∈ ps, safeGlobChar x = true := fun x hx => hp x (List.mem_cons_of_mem _ hx)
    have hq := quantSplit_translate ps hps
    rw [translatePattern_cons] at hf ⊢
    have hlen : (translatePattern ps).length < fuel - 1 := by
      have h1 : 1 ≤ (translateChar c).length := by
        unfold translateChar
        by_cases h1 : c = '.' <;> by_cases h2 : c = '*' <;> by_cases h3 : c = '?' <;>
          simp [h1, h2, h3]
      rw [List.length_append] at hf
      omega
    cases fuel with
    | zero => omega
    | succ f =>
      have hf' : (translatePattern ps).length < f := by omega
      rw [globItems_cons]
      by_cases h1 : c = '.'
      · subst h1
        show parseRegexFuel (f + 1) ('\\' :: '.' :: translatePattern ps) = _
        rw [parseRegexFuel_escape f '.' _ (Or.inl rfl), hq]
        rw [ih hps f hf']
        simp
      · by_cases h2 : c = '*'
        · subst h2
          show parseRegexFuel (f + 1) ('.' :: '*' :: translatePattern ps) = _
          rw [parseRegexFuel_dot f _, quantSplit_star]
          rw [ih hps f hf']
          simp
        · by_cases h3 : c = '?'
          · subst h3
            show parseRegexFuel (f + 1) ('.' :: translatePattern ps) = _
            rw [parseRegexFuel_dot f _, hq]
            rw [ih hps f hf']
            simp
          · have hcs := safeGlobChar_spec c (hp c (List.mem_cons_self _ _)) h3
            have hshow : translateChar c ++ translatePattern ps = c :: translatePattern ps := by
              unfold translateChar
              simp [h1, h2, h3]
            rw [hshow]
            rw [parseRegexFuel_lit f c _ hcs.2.1 h1 hcs.1 h2 hcs.2.2, hq]
            rw [ih hps f hf']
            simp [h1, h2, h3]

/-- The matcher on the item sequence of a glob pattern agrees with spec glob matching
on subjects free of line terminators, fuel for fuel. -/
theorem matchItemsFuel_globItems :
    ∀ (fuel : Nat) (p s : Str), (∀ d ∈ s, d ≠ '\n' ∧ d ≠ '\r') →
      matchItemsFuel fuel (globItems p) s = globMatchFuel fuel p s := by
  intro fuel
  induction fuel with
  | zero =>
    intro p s _
    rfl
  | succ f ih =>
    intro p s hs
    cases p with
    | nil => rfl
    | cons c ps =>
      have hsub : ∀ (d : Char) (ds : Str), s = d :: ds → ∀ e ∈ ds, e ≠ '\n' ∧ e ≠ '\r' := by
        intro d ds hds e he
        exact hs e (hds ▸ List.mem_cons_of_mem _ he)
      by_cases h1 : c = '*'
      · subst h1
        show matchItemsFuel (f + 1) ((RAtom.dot, Quant.star) :: globItems ps) s = _
        cases s with
        | nil =>
          simp only [matchItemsFuel, globMatchFuel]
          rw [ih ps [] (by intro d hd; cases hd)]
          simp
        | cons d ds =>
          have hd := hs d (List.mem_cons_self _ _)
          have hdot : atomMatches RAtom.dot d = true := by
            simp [atomMatches, hd.1, hd.2]
          have hih1 : matchItemsFuel f (globItems ps) (d :: ds) = globMatchFuel f ps (d :: ds) :=
            ih ps (d :: ds) hs
          have hih2 : matchItemsFuel f ((RAtom.dot, Quant.star) :: globItems ps) ds
              = globMatchFuel f ('*' :: ps) ds :=
            ih ('*' :: ps) ds (hsub d ds rfl)
          simp only [matchItemsFuel, globMatchFuel, hdot, Bool.true_and]
          rw [hih1, hih2]
          simp
      · by_cases h2 : c = '?'
        · subst h2
          show matchItemsFuel (f + 1) ((RAtom.dot, Quant.one) :: globItems ps) s = _
          cases s with
          | nil => simp [matchItemsFuel, globMatchFuel]
          | cons d ds =>
            have hd := hs d (List.mem_cons_self _ _)
            have hdot : atomMatches RAtom.dot d = true := by
              simp [atomMatches, hd.1, hd.2]
            simp only [matchItemsFuel, globMatchFuel, hdot, Bool.true_and]
            rw [ih ps ds (hsub d ds rfl)]
            simp
        · rw [globItems_cons, if_neg h1, if_neg h2]
          cases s with
          | nil => simp [matchItemsFuel, globMatchFuel, h1, h2]
          | cons d ds =>
            simp only [matchItemsFuel, globMatchFuel, atomMatches, if_neg h1, if_neg h2]
            rw [ih ps ds (hsub d ds rfl)]

/-- Function matchesPattern on a lowercased safe pattern computes spec glob matching. -/
theorem matchesPattern_safe (h p : Str) (hp : ∀ c ∈ p, safeGlobChar c = true)
    (hh : ∀ d ∈ h, d ≠ '\n' ∧ d ≠ '\r') :
    matchesPattern h (lowerStr p) = some (specGlobMatch (lowerStr p) h) := by
  have hp' : ∀ c ∈ lowerStr p, safeGlobChar c = true := by
    intro c hc
    obtain ⟨e, he, rfl⟩ := List.mem_map.mp hc
    exact safeGlobChar_toLower e (hp e he)
  have hlen : (globItems (lowerStr p)).length = (lowerStr p).length := by
    unfold globItems
    exact List.length_map _ _
  unfold matchesPattern parseRegex
  rw [parseRegexFuel_translate (lowerStr p) hp' _ (Nat.lt_succ_self _)]
  show some (matchItemsFuel (h.length + (globItems (lowerStr p)).length + 2)
      (globItems (lowerStr p)) h) = _
  rw [hlen, matchItemsFuel_globItems _ _ _ hh]
  rfl

/-- The sequential pattern scan over safe patterns computes the spec-side any. -/
theorem anyPatternMatches_safe (h : Str) (l : List Str)
    (hl : ∀ p ∈ l, ∀ c ∈ p, safeGlobChar c = true)
    (hh : ∀ d ∈ h, d ≠ '\n' ∧ d ≠ '\r') :
    anyPatternMatches h l = some (l.any fun p => specGlobMatch (lowerStr p) h) := by
  induction l with
  | nil => rfl
  | cons p ps ih =>
    have hp := hl p (List.mem_cons_self _ _)
    have hps : ∀ q ∈ ps, ∀ c ∈ q, safeGlobChar c = true :=
      fun q hq => hl q (List.mem_cons_of_mem _ hq)
    show (match matchesPattern h (lowerStr p) with
          | none => none
          | some true => some true
          | some false => anyPatternMatches h ps) = _
    rw [matchesPattern_safe h p hp hh]
    cases hm : specGlobMatch (lowerStr p) h with
    | true => simp [hm]
    | false => simp [hm, ih hps]

/-- C7 (counterexample): the denylist pattern "a+" contains the unescaped regex
quantifier plus, which the translation passes through, so the code's regex rejects
hostname "aa" by the denylist; under the claim's glob semantics "a+" is the
two-character literal, which does not match "aa", and with an empty allowlist the
claim demands acceptance. -/
theorem isUrlInScope_c7_counterexample :
    isUrlInScope (some ⟨[], [chars "a+"]⟩) (chars "aa") = false
    ∧ specScopeAccept (some ⟨[], [chars "a+"]⟩) (chars "aa") = true := by
  decide

/-- C7 (amended): with no active scope every hostname is accepted; otherwise a
denylist match rejects, an empty allowlist then accepts, and a non-empty allowlist
accepts exactly on an allowlist match. Matching lowercases both sides and, for
patterns whose characters are the wildcards star and question mark, the dot, or any
character the dot-only escaping does not pass through to the regex engine (no
backslash, parentheses, brackets, braces, pipe, caret, dollar or plus), coincides
with the claim's anchored glob semantics where star is any run and question mark
exactly one character; hostnames are line-terminator free. For a pattern with a
passed-through character the glob reading can fail, as the counterexample's plus
pattern shows. -/
theorem isUrlInScope_c7_amended (scope : Option ScopeStructure) (hostname : Str)
    (hsafe : ∀ sc, scope = some sc →
      ∀ p ∈ sc.allowlist ++ sc.denylist, ∀ c ∈ p, safeGlobChar c = true)
    (hh : ∀ d ∈ hostname, d ≠ '\n' ∧ d ≠ '\r') :
    isUrlInScope scope hostname = specScopeAccept scope hostname := by
  cases scope with
  | none => rfl
  | some sc =>
    have hall := hsafe sc rfl
    have hden : ∀ p ∈ sc.denylist, ∀ c ∈ p, safeGlobChar c = true :=
      fun p hp => hall p (List.mem_append_right _ hp)
    have hallow : ∀ p ∈ sc.allowlist, ∀ c ∈ p, safeGlobChar c = true :=
      fun p hp => hall p (List.mem_append_left _ hp)
    have hh' : ∀ d ∈ lowerStr hostname, d ≠ '\n' ∧ d ≠ '\r' := by
      intro d hd
      obtain ⟨e, he, rfl⟩ := List.mem_map.mp hd
      exact toLower_not_newline e (hh e he)
    show (match anyPatternMatches (lowerStr hostname) sc.denylist with
          | none => false
          | some true => false
          | some false =>
            if sc.allowlist.isEmpty then true
            else
              match anyPatternMatches (lowerStr hostname) sc.allowlist with
              | none => false
              | some true => true
              | some false => false) = _
    rw [anyPatternMatches_safe _ _ hden hh', anyPatternMatches_safe _ _ hallow hh']
    unfold specScopeAccept
    cases hd : (sc.denylist.any fun p => specGlobMatch (lowerStr p) (lowerStr hostname)) with
    | true => simp [hd]
    | false =>
      by_cases he : sc.allowlist.isEmpty
      · simp [hd, he]
      · cases ha : (sc.allowlist.any fun p => specGlobMatch (lowerStr p) (lowerStr hostname)) with
        | true => simp [hd, he, ha]
        | false => simp [hd, he, ha]

/-- C7 (witness): the amended theorem at a concrete scope and hostname whose
allowlist pattern uses both the star and the question mark wildcard. -/
theorem isUrlInScope_c7_amended_witness :
    isUrlInScope (some ⟨[chars "a?p.example.*"], [chars "bad.example.com"]⟩)
      (chars "app.example.com") =
    specScopeAccept (some ⟨[chars "a?p.example.*"], [chars "bad.example.com"]⟩)
      (chars "app.example.com") :=
  isUrlInScope_c7_amended _ _
    (by
      intro sc hsc
      cases hsc
      decide)
    (by decide)

/-- Reading a freshly consed record entry. -/
theorem recordGet_cons (k v x : Str) (a : List (Str × Str)) :
    recordGet ((k, v) :: a) x = if k = x then some v else recordGet a x := by
  unfold recordGet
  rw [List.find?]
  by_cases h : k = x
  · simp [h]
  · simp [h]

/-- Absent keys read as none. -/
theorem recordGet_eq_none (a : List (Str × Str)) (k : Str) (h : k ∉ a.map Prod.fst) :
    recordGet a k = none := by
  unfold recordGet
  rw [List.find?_eq_none.mpr]
  · rfl
  · intro p hp
    simp only [decide_eq_true_eq]
    intro he
    exact h (List.mem_map.mpr ⟨p, hp, he⟩)

/-- The overwrite test of recordSet, seen on the key list. -/
theorem record_any_keys (m : List (Str × Str)) (x : Str) :
    (m.any fun p => p.1 = x) = ((m.map Prod.fst).any fun y => y = x) := by
  induction m with
  | nil => rfl
  | cons p ps ih => simp [List.any_cons, ih]

/-- Key search on a plain key list, as membership. -/
theorem any_eq_mem (l : List Str) (x : Str) : ((l.any fun y => y = x) = true) ↔ x ∈ l := by
  rw [List.any_eq_true]
  constructor
  · rintro ⟨y, hy, he⟩
    rw [decide_eq_true_eq] at he
    exact he ▸ hy
  · intro hx
    exact ⟨x, hx, by simp⟩

/-- Present keys make the overwrite test true. -/
theorem record_any_true (m : List (Str × Str)) (k : Str) (h : k ∈ m.map Prod.fst) :
    (m.any fun p => p.1 = k) = true := by
  rw [record_any_keys]
  exact (any_eq_mem _ _).mpr h

/-- Absent keys make the overwrite test false. -/
theorem record_any_false (m : List (Str × Str)) (k : Str) (h : k ∉ m.map Prod.fst) :
    (m.any fun p => p.1 = k) = false := by
  rw [record_any_keys]
  rw [Bool.eq_false_iff]
  intro hc
  exact h ((any_eq_mem _ _).mp hc)

/-- Overwriting an existing key maps the entries in place. -/
theorem recordSet_of_mem (m : List (Str × Str)) (k v : Str) (h : k ∈ m.map Prod.fst) :
    recordSet m k v = m.map fun p => if p.1 = k then (k, v) else p := by
  unfold recordSet
  rw [if_pos (record_any_true m k h)]

/-- Assigning a fresh key appends. -/
theorem recordSet_of_not_mem (m : List (Str × Str)) (k v : Str) (h : k ∉ m.map Prod.fst) :
    recordSet m k v = m ++ [(k, v)] := by
  unfold recordSet
  rw [if_neg]
  intro hc
  rw [record_any_false m k h] at hc
  exact Bool.false_ne_true hc

/-- In-place overwrite preserves the key list. -/
theorem map_fst_overwrite (m : List (Str × Str)) (k v : Str) :
    (m.map fun p => if p.1 = k then (k, v) else p).map Prod.fst = m.map Prod.fst := by
  rw [List.map_map]
  apply List.map_congr_left
  intro p _
  by_cases hp : p.1 = k
  · simp [hp]
  · simp [hp]

/-- C3 key lemma: merging assigns auth entries by exact, case-sensitive key: entries
of the original record keep their position, those whose key occurs exactly in the
auth record take the auth value, and auth entries with fresh keys are appended in
auth order. -/
theorem mergeAuthHeaders_eq (m a : List (Str × Str)) (ha : (a.map Prod.fst).Nodup) :
    mergeAuthHeaders m a =
      m.map (overrideWith a) ++ (a.filter fun kv => !(m.any fun p => p.1 = kv.1)) := by
  induction a generalizing m with
  | nil =>
    simp only [mergeAuthHeaders, List.foldl_nil, List.filter_nil, List.append_nil]
    nth_rewrite 1 [show m = m.map id from (List.map_id m).symm]
    apply List.map_congr_left
    intro p _
    simp [overrideWith, recordGet]
  | cons kv a' ih =>
    obtain ⟨k, v⟩ := kv
    have hk : k ∉ a'.map Prod.fst := by
      have hh := ha
      simp only [List.map_cons, List.nodup_cons] at hh
      exact hh.1
    have ha' : (a'.map Prod.fst).Nodup := by
      have hh := ha
      simp only [List.map_cons, List.nodup_cons] at hh
      exact hh.2
    have hga : recordGet a' k = none := recordGet_eq_none a' k hk
    show mergeAuthHeaders (recordSet m k v) a' = _
    rw [ih (recordSet m k v) ha']
    by_cases hmem : k ∈ m.map Prod.fst
    · rw [recordSet_of_mem m k v hmem]
      have hmap : (m.map fun p => if p.1 = k then (k, v) else p).map (overrideWith a')
          = m.map (overrideWith ((k, v) :: a')) := by
        rw [List.map_map]
        apply List.map_congr_left
        intro p _
        simp only [Function.comp]
        by_cases hp : p.1 = k
        · rw [if_pos hp]
          simp [overrideWith, recordGet_cons, hga, hp]
        · rw [if_neg hp]
          simp [overrideWith, recordGet_cons, Ne.symm hp]
      have hfil : (a'.filter fun kv' =>
            !((m.map fun p => if p.1 = k then (k, v) else p).any fun p => p.1 = kv'.1))
          = a'.filter fun kv' => !(m.any fun p => p.1 = kv'.1) := by
        apply List.filter_congr
        intro kv' _
        rw [record_any_keys, map_fst_overwrite, record_any_keys]
      have hhead : ((k, v) :: a').filter (fun kv' => !(m.any fun p => p.1 = kv'.1))
          = a'.filter fun kv' => !(m.any fun p => p.1 = kv'.1) := by
        rw [List.filter_cons]
        rw [show (!(m.any fun p => p.1 = (k, v).1)) = false by
          rw [record_any_true m k hmem]
          rfl]
        simp
      rw [hmap, hfil, hhead]
    · rw [recordSet_of_not_mem m k v hmem]
      have hmap : (m ++ [(k, v)]).map (overrideWith a')
          = m.map (overrideWith ((k, v) :: a')) ++ [(k, v)] := by
        rw [List.map_append]
        congr 1
        · apply List.map_congr_left
          intro p hp
          have hpk : p.1 ≠ k := fun he => hmem (List.mem_map.mpr ⟨p, hp, he⟩)
          simp [overrideWith, recordGet_cons, Ne.symm hpk]
        · simp [overrideWith, recordGet_cons, hga]
      have hfil : (a'.filter fun kv' => !((m ++ [(k, v)]).any fun p => p.1 = kv'.1))
          = a'.filter fun kv' => !(m.any fun p => p.1 = kv'.1) := by
        apply List.filter_congr
        intro kv' hkv'
        have hne : kv'.1 ≠ k := fun he => hk (he ▸ List.mem_map.mpr ⟨kv', hkv', rfl⟩)
        rw [record_any_keys (m ++ [(k, v)]), List.map_append, List.any_append,
          record_any_keys m]
        simp [Ne.symm hne]
      have hhead : ((k, v) :: a').filter (fun kv' => !(m.any fun p => p.1 = kv'.1))
          = (k, v) :: (a'.filter fun kv' => !(m.any fun p => p.1 = kv'.1)) := by
        rw [List.filter_cons]
        rw [show (!(m.any fun p => p.1 = (k, v).1)) = true by
          rw [record_any_false m k hmem]
          rfl]
        simp
      rw [hmap, hfil, hhead]
      simp

/-- C3 (counterexample): original request with header name "cookie", auth header
named "Cookie": the merge is exact-case, so the modified header record carries BOTH
a "cookie" and a "Cookie" entry; the claim demands exactly one header with that
case-insensitive name, carrying the auth value. -/
theorem mergeAuthHeaders_c3_counterexample :
    mergeAuthHeaders (decodeRequest (chars "GET / HTTP/1.1\nHost: x\ncookie: a\n\n")).headers
        (parseAuthHeaders (chars "Cookie: b"))
      = [(chars "Host", chars "x"), (chars "cookie", chars "a"), (chars "Cookie", chars "b")]
    ∧ ((mergeAuthHeaders (decodeRequest (chars "GET / HTTP/1.1\nHost: x\ncookie: a\n\n")).headers
        (parseAuthHeaders (chars "Cookie: b"))).filter
          fun kv => lowerStr kv.1 = chars "cookie").length = 2 := by
  decide

/-- C3 (amended): for every header present in the configured auth set, the original
request's header of exactly the same name (case-SENSITIVE match) is overwritten in
place, keeping its original position; auth headers whose exact name is absent are
appended after the original headers, in auth order; all other original headers are
untouched and keep their relative order. A header differing from an auth header's
name only in letter case is therefore left as is, and the modified request then
carries two headers with that case-insensitive name. -/
theorem mergeAuthHeaders_c3_amended (m a : List (Str × Str))
    (ha : (a.map Prod.fst).Nodup) :
    mergeAuthHeaders m a =
      m.map (overrideWith a) ++ (a.filter fun kv => !(m.any fun p => p.1 = kv.1)) :=
  mergeAuthHeaders_eq m a ha

/-- C3 (witness): the amended theorem at a concrete original and auth record. -/
theorem mergeAuthHeaders_c3_amended_witness :
    mergeAuthHeaders
        [(chars "Host", chars "h"), (chars "cookie", chars "a")]
        [(chars "Cookie", chars "b"), (chars "Host", chars "x")]
      = ([(chars "Host", chars "h"), (chars "cookie", chars "a")].map
          (overrideWith [(chars "Cookie", chars "b"), (chars "Host", chars "x")]))
        ++ ([(chars "Cookie", chars "b"), (chars "Host", chars "x")].filter
            fun kv => !([(chars "Host", chars "h"), (chars "cookie", chars "a")].any
              fun p => p.1 = kv.1)) :=
  mergeAuthHeaders_c3_amended _ _ (by decide)

/-- C9 (counterexample): a well-formed request with two headers of the same name
decodes into a last-wins record, so re-encoding emits only one of them: header
multiplicity is not preserved by the round trip. -/
theorem roundTrip_c9_counterexample :
    specHeaderPairs (chars "GET /p HTTP/1.1\nA: 1\nA: 2\n\nbody")
      = [(chars "A", chars "1"), (chars "A", chars "2")]
    ∧ specHeaderPairs (encodeRequest (decodeRequest (chars "GET /p HTTP/1.1\nA: 1\nA: 2\n\nbody")))
      = [(chars "A", chars "2")]
    ∧ (decodeRequest (chars "GET /p HTTP/1.1\nA: 1\nA: 2\n\nbody")).body = chars "body" := by
  decide

/-- A character split never yields an empty list of pieces. -/
theorem splitOnChar_ne_nil (sep : Char) (s : Str) : splitOnChar sep s ≠ [] := by
  cases s with
  | nil => simp [splitOnChar]
  | cons c rest =>
    simp only [splitOnChar]
    by_cases h : c = sep
    · simp [h]
    · simp only [if_neg h]
      cases splitOnChar sep rest with
      | nil => simp
      | cons hd tl => simp

/-- Splitting after a leading separator. -/
theorem splitOnChar_cons_sep (sep : Char) (s : Str) :
    splitOnChar sep (sep :: s) = [] :: splitOnChar sep s := by
  simp [splitOnChar]

/-- Splitting after a leading non-separator. -/
theorem splitOnChar_cons_ne (sep c : Char) (s : Str) (h : c ≠ sep)
    (hd : Str) (tl : List Str) (hs : splitOnChar sep s = hd :: tl) :
    splitOnChar sep (c :: s) = (c :: hd) :: tl := by
  simp only [splitOnChar, if_neg h, hs]

/-- Splitting distributes over a separator-free prefix. -/
theorem splitOnChar_append_nosep (sep : Char) (x y : Str) (hx : ∀ c ∈ x, c ≠ sep)
    (hd : Str) (tl : List Str) (hy : splitOnChar sep y = hd :: tl) :
    splitOnChar sep (x ++ y) = (x ++ hd) :: tl := by
  induction x with
  | nil => simpa using hy
  | cons a x' ih =>
    have ha : a ≠ sep := hx a (List.mem_cons_self _ _)
    have hx' : ∀ c ∈ x', c ≠ sep := fun c hc => hx c (List.mem_cons_of_mem _ hc)
    show splitOnChar sep (a :: (x' ++ y)) = _
    rw [splitOnChar_cons_ne sep a (x' ++ y) ha (x' ++ hd) tl (ih hx')]
    rfl

/-- Pieces of a split never contain the separator. -/
theorem not_mem_splitOnChar (sep : Char) (s : Str) :
    ∀ l ∈ splitOnChar sep s, sep ∉ l := by
  induction s with
  | nil =>
    intro l hl
    simp only [splitOnChar, List.mem_singleton] at hl
    subst hl
    simp
  | cons c rest ih =>
    intro l hl
    by_cases h : c = sep
    · subst h
      rw [splitOnChar_cons_sep] at hl
      rcases List.mem_cons.mp hl with h1 | h1
      · subst h1
        simp
      · exact ih l h1
    · cases hsp : splitOnChar sep rest with
      | nil => exact absurd hsp (splitOnChar_ne_nil sep rest)
      | cons hd tl =>
        rw [splitOnChar_cons_ne sep c rest h hd tl hsp] at hl
        rcases List.mem_cons.mp hl with h1 | h1
        · subst h1
          intro hmem
          rcases List.mem_cons.mp hmem with h2 | h2
          · exact h h2.symm
          · exact ih hd (by rw [hsp]; exact List.mem_cons_self _ _) h2
        · exact ih l (by rw [hsp]; exact List.mem_cons_of_mem _ h1)

/-- Join inverts split. -/
theorem joinWith_splitOnChar (sep : Char) (s : Str) :
    joinWith [sep] (splitOnChar sep s) = s := by
  induction s with
  | nil => rfl
  | cons a s' ih =>
    by_cases h : a = sep
    · subst h
      rw [splitOnChar_cons_sep]
      cases hsp : splitOnChar a s' with
      | nil => exact absurd hsp (splitOnChar_ne_nil _ _)
      | cons hd tl =>
        rw [hsp] at ih
        show joinWith [a] ([] :: hd :: tl) = a :: s'
        simp only [joinWith]
        rw [ih]
        rfl
    · cases hsp : splitOnChar sep s' with
      | nil => exact absurd hsp (splitOnChar_ne_nil _ _)
      | cons hd tl =>
        rw [splitOnChar_cons_ne sep a s' h hd tl hsp]
        rw [hsp] at ih
        cases tl with
        | nil =>
          show joinWith [sep] [a :: hd] = a :: s'
          simp only [joinWith] at ih ⊢
          rw [ih]
        | cons t1 t2 =>
          show joinWith [sep] ((a :: hd) :: t1 :: t2) = a :: s'
          simp only [joinWith] at ih ⊢
          rw [← ih]
          simp

/-- Heads surviving dropWhile fail the predicate. -/
theorem head_dropWhile {p : Char → Bool} {l : Str} {c : Char} {t : Str}
    (h : l.dropWhile p = c :: t) : p c = false := by
  induction l with
  | nil => simp at h
  | cons a l' ih =>
    rw [List.dropWhile_cons] at h
    by_cases ha : p a = true
    · rw [if_pos ha] at h
      exact ih h
    · rw [if_neg ha] at h
      cases h
      exact Bool.not_eq_true _ |>.mp ha

/-- dropWhile is idempotent. -/
theorem dropWhile_idem (p : Char → Bool) (l : Str) :
    (l.dropWhile p).dropWhile p = l.dropWhile p := by
  cases hd : l.dropWhile p with
  | nil => rfl
  | cons c t =>
    rw [List.dropWhile_cons, if_neg]
    rw [head_dropWhile hd]
    simp

/-- dropWhile over an appended non-matching last element. -/
theorem dropWhile_append_last (p : Char → Bool) (l : Str) (c : Char) (hc : p c = false) :
    (l ++ [c]).dropWhile p
      = if l.dropWhile p = [] then [c] else l.dropWhile p ++ [c] := by
  induction l with
  | nil => simp [List.dropWhile, hc]
  | cons a l' ih =>
    by_cases ha : p a = true
    · rw [List.cons_append, List.dropWhile_cons, if_pos ha, ih,
        List.dropWhile_cons, if_pos ha]
    · rw [List.cons_append, List.dropWhile_cons, if_neg ha,
        List.dropWhile_cons, if_neg ha]
      simp

/-- The left dropWhile of a trimmed string has already happened. -/
theorem dropWhile_trimStr (s : Str) : (trimStr s).dropWhile isWsChar = trimStr s := by
  unfold trimStr
  cases hD : s.dropWhile isWsChar with
  | nil => simp
  | cons c t =>
    have hc : isWsChar c = false := head_dropWhile hD
    have hrev : (c :: t).reverse = t.reverse ++ [c] := by simp
    rw [hrev, dropWhile_append_last _ _ _ hc]
    by_cases hnil : t.reverse.dropWhile isWsChar = []
    · rw [if_pos hnil]
      simp [List.dropWhile, hc]
    · rw [if_neg hnil]
      rw [List.reverse_append]
      simp only [List.reverse_singleton, List.singleton_append]
      rw [List.dropWhile_cons, if_neg (by rw [hc]; simp)]

/-- The right dropWhile of a trimmed string has already happened. -/
theorem dropWhile_reverse_trimStr (s : Str) :
    (trimStr s).reverse.dropWhile isWsChar = (trimStr s).reverse := by
  unfold trimStr
  rw [List.reverse_reverse]
  exact dropWhile_idem _ _

/-- Trimming is idempotent. -/
theorem trimStr_idem (s : Str) : trimStr (trimStr s) = trimStr s := by
  show (((trimStr s).dropWhile isWsChar).reverse.dropWhile isWsChar).reverse = trimStr s
  rw [dropWhile_trimStr s, dropWhile_reverse_trimStr s, List.reverse_reverse]

/-- A nonempty trim-invariant string starts with a non-whitespace character. -/
theorem trimmed_head (s : Str) (hs : trimStr s = s) (hne : s ≠ []) :
    ∃ c t, s = c :: t ∧ isWsChar c = false := by
  have h := dropWhile_trimStr s
  rw [hs] at h
  cases s with
  | nil => exact absurd rfl hne
  | cons c t =>
    refine ⟨c, t, rfl, ?_⟩
    rw [List.dropWhile_cons] at h
    by_cases hc : isWsChar c = true
    · rw [if_pos hc] at h
      have hlen := congrArg List.length h
      have hle := (List.dropWhile_sublist (p := isWsChar) (l := t)).length_le
      simp only [List.length_cons] at hlen
      omega
    · exact Bool.not_eq_true _ |>.mp hc

/-- A nonempty trim-invariant string ends with a non-whitespace character. -/
theorem trimmed_last (s : Str) (hs : trimStr s = s) (hne : s ≠ []) :
    ∃ c t, s.reverse = c :: t ∧ isWsChar c = false := by
  have h := dropWhile_reverse_trimStr s
  rw [hs] at h
  cases hrev : s.reverse with
  | nil =>
    exact absurd (by simpa using congrArg List.reverse hrev) hne
  | cons c t =>
    refine ⟨c, t, rfl, ?_⟩
    rw [hrev, List.dropWhile_cons] at h
    by_cases hc : isWsChar c = true
    · rw [if_pos hc] at h
      have hlen := congrArg List.length h
      have hle := (List.dropWhile_sublist (p := isWsChar) (l := t)).length_le
      simp only [List.length_cons] at hlen
      omega
    · exact Bool.not_eq_true _ |>.mp hc

/-- Trim of an encoded header line: the trailing CR goes, and with it the separator
space when the value is empty. -/
theorem trim_header_line (k v : Str) (hk : k ≠ []) (hkt : trimStr k = k)
    (hvt : trimStr v = v) :
    trimStr (k ++ chars ": " ++ v ++ ['\r'])
      = k ++ [':'] ++ (if v = [] then [] else ' ' :: v) := by
  have hcs : chars ": " = [':', ' '] := rfl
  obtain ⟨kc, kt, hkeq, hkc⟩ := trimmed_head k hkt hk
  have hleft : (k ++ chars ": " ++ v ++ ['\r']).dropWhile isWsChar
      = k ++ chars ": " ++ v ++ ['\r'] := by
    rw [hkeq]
    simp only [List.cons_append, List.append_assoc]
    rw [List.dropWhile_cons, if_neg (by rw [hkc]; simp)]
  show trimStr (k ++ chars ": " ++ v ++ ['\r']) = _
  unfold trimStr
  rw [hleft]
  by_cases hv : v = []
  · subst hv
    rw [if_pos rfl]
    have hrev : (k ++ chars ": " ++ [] ++ ['\r']).reverse
        = '\r' :: ' ' :: ':' :: k.reverse := by
      rw [hcs]
      simp
    rw [hrev]
    rw [List.dropWhile_cons, if_pos (by simp [isWsChar])]
    rw [List.dropWhile_cons, if_pos (by simp [isWsChar])]
    rw [List.dropWhile_cons, if_neg (by simp [isWsChar])]
    simp
  · rw [if_neg hv]
    obtain ⟨vc, vt, hveq, hvc⟩ := trimmed_last v hvt hv
    have hrev : (k ++ chars ": " ++ v ++ ['\r']).reverse
        = '\r' :: (v.reverse ++ ' ' :: ':' :: k.reverse) := by
      rw [hcs]
      simp
    rw [hrev]
    rw [List.dropWhile_cons, if_pos (by simp [isWsChar])]
    rw [hveq, List.cons_append, List.dropWhile_cons, if_neg (by rw [hvc]; simp)]
    rw [← List.cons_append, ← hveq]
    simp

/-- Trimming drops a leading whitespace character. -/
theorem trimStr_cons_ws (c : Char) (s : Str) (hc : isWsChar c = true) :
    trimStr (c :: s) = trimStr s := by
  unfold trimStr
  rw [List.dropWhile_cons, if_pos hc]

/-- First-character search past an occurrence-free prefix. -/
theorem idxOfChar_append (c : Char) (k rest : Str) (h : c ∉ k) :
    idxOfChar c (k ++ c :: rest) = some k.length := by
  unfold idxOfChar
  induction k with
  | nil => simp [List.findIdx?_cons]
  | cons a t ih =>
    have ha : ¬(a = c) := fun he => h (he ▸ List.mem_cons_self _ _)
    have ht : c ∉ t := fun hm => h (List.mem_cons_of_mem _ hm)
    rw [List.cons_append, List.findIdx?_cons, if_neg (by simp [ha]), List.findIdx?_succ]
    rw [ih ht]
    simp

/-- Parsing a re-encoded header line returns exactly the original pair. -/
theorem parseHeaderLine_encoded (k v : Str) (hk : k ≠ []) (hkt : trimStr k = k)
    (hvt : trimStr v = v) (hcol : ':' ∉ k) :
    parseHeaderLine (trimStr (k ++ chars ": " ++ v ++ ['\r'])) = some (k, v) := by
  have hklen : 0 < k.length := by
    cases k with
    | nil => exact absurd rfl hk
    | cons a t => simp
  rw [trim_header_line k v hk hkt hvt]
  by_cases hv : v = []
  · subst hv
    rw [if_pos rfl, List.append_nil]
    unfold parseHeaderLine
    rw [show (k ++ [':'] : Str) = k ++ ':' :: [] from rfl]
    rw [idxOfChar_append ':' k [] hcol]
    show (if 0 < k.length then
        some (trimStr ((k ++ [':']).take k.length), trimStr ((k ++ [':']).drop (k.length + 1)))
      else none) = some (k, [])
    rw [if_pos hklen]
    rw [List.take_left]
    rw [List.drop_eq_nil_of_le (by simp)]
    rw [hkt]
    rfl
  · rw [if_neg hv]
    unfold parseHeaderLine
    rw [show (k ++ [':'] ++ ' ' :: v : Str) = k ++ ':' :: (' ' :: v) by simp]
    rw [idxOfChar_append ':' k (' ' :: v) hcol]
    show (if 0 < k.length then
        some (trimStr ((k ++ ':' :: (' ' :: v)).take k.length),
          trimStr ((k ++ ':' :: (' ' :: v)).drop (k.length + 1)))
      else none) = some (k, v)
    rw [if_pos hklen]
    rw [List.take_left]
    have hdrop : (k ++ ':' :: (' ' :: v)).drop (k.length + 1) = ' ' :: v := by
      rw [← List.drop_drop, List.drop_left]
      rfl
    rw [hdrop, hkt, trimStr_cons_ws ' ' v (by simp [isWsChar]), hvt]

/-- Members of a trimmed string come from the original. -/
theorem mem_of_mem_trimStr (s : Str) (x : Char) (h : x ∈ trimStr s) : x ∈ s := by
  unfold trimStr at h
  rw [List.mem_reverse] at h
  have h1 := (List.dropWhile_sublist (p := isWsChar)
    (l := (s.dropWhile isWsChar).reverse)).subset h
  rw [List.mem_reverse] at h1
  exact (List.dropWhile_sublist (p := isWsChar) (l := s)).subset h1

/-- Trimming a string with a non-whitespace head never empties it. -/
theorem trimStr_cons_not_ws_ne_nil (c : Char) (t : Str) (hc : isWsChar c = false) :
    trimStr (c :: t) ≠ [] := by
  unfold trimStr
  intro h
  rw [List.reverse_eq_nil_iff] at h
  rw [List.dropWhile_cons, if_neg (by rw [hc]; simp)] at h
  have hall : ∀ x ∈ (c :: t).reverse, isWsChar x = true := List.dropWhile_eq_nil_iff.mp h
  have hcmem : c ∈ (c :: t).reverse := by simp
  rw [hall c hcmem] at hc
  cases hc

/-- Elements before a found index fail the predicate. -/
theorem findIdx?_take_false {α : Type} (p : α → Bool) :
    ∀ (l : List α) (i : Nat), l.findIdx? p = some i → ∀ x ∈ l.take i, p x = false := by
  intro l
  induction l with
  | nil =>
    intro i _ x hx
    simp at hx
  | cons a t ih =>
    intro i h x hx
    rw [List.findIdx?_cons] at h
    by_cases ha : p a = true
    · rw [if_pos ha] at h
      cases h
      simp at hx
    · rw [if_neg ha] at h
      rw [List.findIdx?_succ] at h
      cases hfi : t.findIdx? p with
      | none =>
        rw [hfi] at h
        simp at h
      | some j =>
        rw [hfi] at h
        simp at h
        subst h
        rw [List.take_succ_cons] at hx
        rcases List.mem_cons.mp hx with h1 | h1
        · subst h1
          exact Bool.not_eq_true _ |>.mp ha
        · exact ih j hfi x h1

/-- Every element fails the predicate when nothing is found. -/
theorem findIdx?_none_false {α : Type} (p : α → Bool) :
    ∀ (l : List α), l.findIdx? p = none → ∀ x ∈ l, p x = false := by
  intro l
  induction l with
  | nil =>
    intro _ x hx
    simp at hx
  | cons a t ih =>
    intro h x hx
    rw [List.findIdx?_cons] at h
    by_cases ha : p a = true
    · rw [if_pos ha] at h
      cases h
    · rw [if_neg ha] at h
      rw [List.findIdx?_succ] at h
      rcases List.mem_cons.mp hx with h1 | h1
      · subst h1
        exact Bool.not_eq_true _ |>.mp ha
      · cases hfi : t.findIdx? p with
        | none => exact ih hfi x h1
        | some j =>
          rw [hfi] at h
          simp at h

/-- Lines of the header region are neither empty nor whitespace-only. -/
theorem headerRegion_not_blankish (lines : List Str) :
    ∀ l ∈ (lines.drop 1).take (headerEndIndex lines - 1), l ≠ [] ∧ trimStr l ≠ [] := by
  intro l hl
  have hconv : ∀ (hp : (l.isEmpty || (trimStr l).isEmpty) = false), l ≠ [] ∧ trimStr l ≠ [] := by
    intro hp
    rw [Bool.or_eq_false_iff] at hp
    constructor
    · intro he
      rw [he] at hp
      simp at hp
    · intro he
      rw [he] at hp
      simp at hp
  unfold headerEndIndex at hl
  cases hfi : (lines.drop 1).findIdx? (fun l => l.isEmpty || (trimStr l).isEmpty) with
  | some i =>
    rw [hfi] at hl
    simp only [Nat.add_sub_cancel] at hl
    exact hconv (findIdx?_take_false _ _ i hfi l hl)
  | none =>
    rw [hfi] at hl
    exact hconv (findIdx?_none_false _ _ hfi l (List.mem_of_mem_take hl))

/-- Outputs of the line parser satisfy the header invariant. -/
theorem parseHeaderLine_wf (line : Str) (hn : '\n' ∉ line) (hbne : trimStr line ≠ [])
    (k v : Str) (h : parseHeaderLine (trimStr line) = some (k, v)) : headerWF (k, v) := by
  unfold parseHeaderLine at h
  cases hidx : idxOfChar ':' (trimStr line) with
  | none =>
    rw [hidx] at h
    cases h
  | some i =>
    rw [hidx] at h
    replace h : (if 0 < i then
        some (trimStr ((trimStr line).take i), trimStr ((trimStr line).drop (i + 1)))
      else none) = some (k, v) := h
    by_cases hi : 0 < i
    · rw [if_pos hi] at h
      simp only [Option.some.injEq, Prod.mk.injEq] at h
      obtain ⟨hk, hv⟩ := h
      subst hk
      subst hv
      have htt : trimStr (trimStr line) = trimStr line := trimStr_idem line
      obtain ⟨c, t, hct, hcw⟩ := trimmed_head (trimStr line) htt hbne
      have htake : (trimStr line).take i = c :: t.take (i - 1) := by
        rw [hct]
        cases i with
        | zero => omega
        | succ j => rw [List.take_succ_cons, Nat.add_sub_cancel]
      refine ⟨?_, trimStr_idem _, trimStr_idem _, ?_, ?_, ?_⟩
      · rw [htake]
        exact trimStr_cons_not_ws_ne_nil c _ hcw
      · intro hmem
        have h1 : ':' ∈ (trimStr line).take i := mem_of_mem_trimStr _ _ hmem
        have h2 := findIdx?_take_false (fun y => y = ':') (trimStr line) i hidx ':' h1
        simp at h2
      · intro hmem
        exact hn (mem_of_mem_trimStr _ _
          (List.mem_of_mem_take (mem_of_mem_trimStr _ _ hmem)))
      · intro hmem
        exact hn (mem_of_mem_trimStr _ _
          (List.mem_of_mem_drop (mem_of_mem_trimStr _ _ hmem)))
    · rw [if_neg hi] at h
      cases h

/-- Entries of an updated record come from the old record or are the new pair. -/
theorem recordSet_mem (m : List (Str × Str)) (k v : Str) (p : Str × Str)
    (h : p ∈ recordSet m k v) : p ∈ m ∨ p = (k, v) := by
  unfold recordSet at h
  by_cases hc : (m.any fun q => q.1 = k) = true
  · rw [if_pos hc] at h
    obtain ⟨q, hq, hqe⟩ := List.mem_map.mp h
    by_cases hqk : q.1 = k
    · rw [if_pos hqk] at hqe
      right
      exact hqe.symm
    · rw [if_neg hqk] at hqe
      left
      exact hqe ▸ hq
  · rw [if_neg hc] at h
    rcases List.mem_append.mp h with h1 | h1
    · left
      exact h1
    · right
      simpa using h1

/-- Keys stay duplicate-free under record assignment. -/
theorem recordSet_keys_nodup (m : List (Str × Str)) (k v : Str)
    (h : (m.map Prod.fst).Nodup) : ((recordSet m k v).map Prod.fst).Nodup := by
  by_cases hm : k ∈ m.map Prod.fst
  · rw [recordSet_of_mem m k v hm, map_fst_overwrite]
    exact h
  · rw [recordSet_of_not_mem m k v hm]
    rw [List.map_append, List.nodup_append]
    refine ⟨h, List.nodup_singleton _, ?_⟩
    simp only [List.map_cons, List.map_nil]
    intro x hx hx2
    simp only [List.mem_singleton] at hx2
    subst hx2
    exact hm hx

/-- The header fold keeps every entry well-formed. -/
theorem foldHeaders_wf (ls : List Str) (hl : ∀ l ∈ ls, '\n' ∉ l ∧ trimStr l ≠ []) :
    ∀ (m : List (Str × Str)), (∀ kv ∈ m, headerWF kv) →
      ∀ kv ∈ ls.foldl (fun m line =>
          if line = [] then m
          else match parseHeaderLine (trimStr line) with
            | some kv => recordSet m kv.1 kv.2
            | none => m) m, headerWF kv := by
  induction ls with
  | nil =>
    intro m hm kv hkv
    exact hm kv hkv
  | cons l ls' ih =>
    intro m hm kv hkv
    rw [List.foldl_cons] at hkv
    refine ih (fun l2 hl2 => hl l2 (List.mem_cons_of_mem _ hl2)) _ ?_ kv hkv
    intro kv2 hkv2
    obtain ⟨hln, hltrim⟩ := hl l (List.mem_cons_self _ _)
    by_cases hle : l = []
    · rw [if_pos hle] at hkv2
      exact hm kv2 hkv2
    · rw [if_neg hle] at hkv2
      cases hp : parseHeaderLine (trimStr l) with
      | none =>
        rw [hp] at hkv2
        exact hm kv2 hkv2
      | some kvp =>
        rw [hp] at hkv2
        rcases recordSet_mem _ _ _ _ hkv2 with h1 | h1
        · exact hm kv2 h1
        · subst h1
          exact parseHeaderLine_wf l hln hltrim kvp.1 kvp.2 hp

/-- The header fold keeps keys duplicate-free. -/
theorem foldHeaders_nodup (ls : List Str) :
    ∀ (m : List (Str × Str)), (m.map Prod.fst).Nodup →
      ((ls.foldl (fun m line =>
          if line = [] then m
          else match parseHeaderLine (trimStr line) with
            | some kv => recordSet m kv.1 kv.2
            | none => m) m).map Prod.fst).Nodup := by
  induction ls with
  | nil =>
    intro m hm
    exact hm
  | cons l ls' ih =>
    intro m hm
    rw [List.foldl_cons]
    refine ih _ ?_
    by_cases hle : l = []
    · rw [if_pos hle]
      exact hm
    · rw [if_neg hle]
      cases hp : parseHeaderLine (trimStr l) with
      | none => exact hm
      | some kvp => exact recordSet_keys_nodup _ _ _ hm

/-- Decoded requests are well-formed: the request line is newline-free, every header
entry satisfies the invariant, and keys are duplicate-free. -/
theorem decodeRequest_wf (raw : Str) :
    '\n' ∉ (decodeRequest raw).requestLine
    ∧ (∀ kv ∈ (decodeRequest raw).headers, headerWF kv)
    ∧ ((decodeRequest raw).headers.map Prod.fst).Nodup := by
  refine ⟨?_, ?_, ?_⟩
  · show '\n' ∉ (splitOnChar '\n' raw).headD []
    cases hsp : splitOnChar '\n' raw with
    | nil => exact absurd hsp (splitOnChar_ne_nil _ _)
    | cons hd tl =>
      simp only [List.headD_cons]
      exact not_mem_splitOnChar '\n' raw hd (by rw [hsp]; exact List.mem_cons_self _ _)
  · show ∀ kv ∈ collectHeaders (splitOnChar '\n' raw) (headerEndIndex (splitOnChar '\n' raw)),
      headerWF kv
    unfold collectHeaders
    apply foldHeaders_wf
    · intro l hl
      refine ⟨?_, (headerRegion_not_blankish (splitOnChar '\n' raw) l hl).2⟩
      exact not_mem_splitOnChar '\n' raw l (List.mem_of_mem_drop (List.mem_of_mem_take hl))
    · intro kv hkv
      cases hkv
  · show ((collectHeaders (splitOnChar '\n' raw)
        (headerEndIndex (splitOnChar '\n' raw))).map Prod.fst).Nodup
    unfold collectHeaders
    exact foldHeaders_nodup _ [] List.nodup_nil

/-- Index search past an all-failing prefix. -/
theorem findIdx?_append_false {α : Type} (p : α → Bool) (l₁ l₂ : List α)
    (h : ∀ a ∈ l₁, p a = false) :
    (l₁ ++ l₂).findIdx? p = (l₂.findIdx? p).map (· + l₁.length) := by
  induction l₁ with
  | nil => simp
  | cons a t ih =>
    rw [List.cons_append, List.findIdx?_cons,
      if_neg (by rw [h a (List.mem_cons_self _ _)]; simp), List.findIdx?_succ]
    rw [ih fun x hx => h x (List.mem_cons_of_mem _ hx)]
    cases l₂.findIdx? p with
    | none => rfl
    | some j => rfl

/-- Split of the encoded header block followed by the blank line and body. -/
theorem splitOnChar_headerBlock (hs : List (Str × Str)) (body : Str)
    (hk : ∀ kv ∈ hs, '\n' ∉ kv.1) (hv : ∀ kv ∈ hs, '\n' ∉ kv.2) :
    splitOnChar '\n'
        ((hs.foldr (fun kv acc => kv.1 ++ chars ": " ++ kv.2 ++ chars "\r\n" ++ acc) [])
          ++ '\r' :: '\n' :: body)
      = (hs.map fun kv => kv.1 ++ chars ": " ++ kv.2 ++ ['\r'])
        ++ ['\r'] :: splitOnChar '\n' body := by
  induction hs with
  | nil =>
    simp only [List.foldr_nil, List.nil_append, List.map_nil]
    rw [show ('\r' :: '\n' :: body : Str) = ['\r'] ++ '\n' :: body from rfl]
    rw [splitOnChar_append_nosep '\n' ['\r'] ('\n' :: body) (by simp) []
      (splitOnChar '\n' body) (splitOnChar_cons_sep '\n' body)]
    simp
  | cons kv hs' ih =>
    have hk' : ∀ p ∈ hs', '\n' ∉ p.1 := fun p hp => hk p (List.mem_cons_of_mem _ hp)
    have hv' : ∀ p ∈ hs', '\n' ∉ p.2 := fun p hp => hv p (List.mem_cons_of_mem _ hp)
    have hx : ∀ c ∈ kv.1 ++ chars ": " ++ kv.2 ++ ['\r'], c ≠ '\n' := by
      intro c hc he
      subst he
      rcases List.mem_append.mp hc with h1 | h1
      · rcases List.mem_append.mp h1 with h2 | h2
        · rcases List.mem_append.mp h2 with h3 | h3
          · exact hk kv (List.mem_cons_self _ _) h3
          · simp [chars] at h3
        · exact hv kv (List.mem_cons_self _ _) h2
      · simp at h1
    simp only [List.foldr_cons, List.map_cons]
    have hassoc : kv.1 ++ chars ": " ++ kv.2 ++ chars "\r\n"
          ++ (hs'.foldr (fun kv acc => kv.1 ++ chars ": " ++ kv.2 ++ chars "\r\n" ++ acc) [])
          ++ '\r' :: '\n' :: body
        = (kv.1 ++ chars ": " ++ kv.2 ++ ['\r'])
          ++ '\n' :: ((hs'.foldr (fun kv acc => kv.1 ++ chars ": " ++ kv.2 ++ chars "\r\n" ++ acc) [])
            ++ '\r' :: '\n' :: body) := by
      simp [chars]
    rw [hassoc]
    rw [splitOnChar_append_nosep '\n' (kv.1 ++ chars ": " ++ kv.2 ++ ['\r'])
      ('\n' :: ((hs'.foldr (fun kv acc => kv.1 ++ chars ": " ++ kv.2 ++ chars "\r\n" ++ acc) [])
        ++ '\r' :: '\n' :: body)) hx []
      (splitOnChar '\n'
        ((hs'.foldr (fun kv acc => kv.1 ++ chars ": " ++ kv.2 ++ chars "\r\n" ++ acc) [])
          ++ '\r' :: '\n' :: body))
      (splitOnChar_cons_sep '\n' _)]
    rw [ih hk' hv']
    simp

/-- Line decomposition of an encoded request. -/
theorem splitOnChar_encodeRequest (q : ParsedRequest) (hrl : '\n' ∉ q.requestLine)
    (hk : ∀ kv ∈ q.headers, '\n' ∉ kv.1) (hv : ∀ kv ∈ q.headers, '\n' ∉ kv.2) :
    splitOnChar '\n' (encodeRequest q)
      = (q.requestLine ++ ['\r'])
        :: ((q.headers.map fun kv => kv.1 ++ chars ": " ++ kv.2 ++ ['\r'])
          ++ ['\r'] :: splitOnChar '\n' q.body) := by
  have hbody : (if q.body ≠ [] then q.body else []) = q.body := by
    by_cases h : q.body = []
    · simp [h]
    · simp [h]
  have henc : encodeRequest q
      = (q.requestLine ++ ['\r'])
        ++ '\n' :: ((q.headers.foldr
            (fun kv acc => kv.1 ++ chars ": " ++ kv.2 ++ chars "\r\n" ++ acc) [])
          ++ '\r' :: '\n' :: q.body) := by
    unfold encodeRequest
    rw [hbody]
    simp [chars]
  rw [henc]
  rw [splitOnChar_append_nosep '\n' (q.requestLine ++ ['\r'])
    ('\n' :: ((q.headers.foldr
        (fun kv acc => kv.1 ++ chars ": " ++ kv.2 ++ chars "\r\n" ++ acc) [])
      ++ '\r' :: '\n' :: q.body))
    (by
      intro c hc he
      subst he
      rcases List.mem_append.mp hc with h1 | h1
      · exact hrl h1
      · simp at h1)
    []
    (splitOnChar '\n' ((q.headers.foldr
        (fun kv acc => kv.1 ++ chars ": " ++ kv.2 ++ chars "\r\n" ++ acc) [])
      ++ '\r' :: '\n' :: q.body))
    (splitOnChar_cons_sep '\n' _)]
  rw [splitOnChar_headerBlock q.headers q.body hk hv]
  simp

/-- Header-end index of the encoded line list. -/
theorem headerEndIndex_encoded (L0 : Str) (hs : List (Str × Str)) (B : List Str)
    (hwf : ∀ kv ∈ hs, headerWF kv) :
    headerEndIndex (L0 :: ((hs.map fun kv => kv.1 ++ chars ": " ++ kv.2 ++ ['\r'])
        ++ ['\r'] :: B))
      = hs.length + 1 := by
  unfold headerEndIndex
  rw [show (L0 :: ((hs.map fun kv => kv.1 ++ chars ": " ++ kv.2 ++ ['\r'])
      ++ ['\r'] :: B)).drop 1
    = (hs.map fun kv => kv.1 ++ chars ": " ++ kv.2 ++ ['\r']) ++ ['\r'] :: B from rfl]
  rw [findIdx?_append_false _ _ _ ?hfalse]
  case hfalse =>
    intro l hl
    obtain ⟨kv, hkv, hle⟩ := List.mem_map.mp hl
    obtain ⟨hk1, hk2, hk3, _, _, _⟩ := hwf kv hkv
    subst hle
    obtain ⟨c, t, hct, hcw⟩ := trimmed_head kv.1 hk2 hk1
    rw [Bool.or_eq_false_iff]
    constructor
    · rw [hct]
      rfl
    · rw [trim_header_line kv.1 kv.2 hk1 hk2 hk3, hct]
      rfl
  rw [List.findIdx?_cons, if_pos (by rfl)]
  simp

/-- Folding record assignment over pairwise-fresh pairs appends them. -/
theorem foldl_recordSet_append (pairs : List (Str × Str)) :
    ∀ (m : List (Str × Str)), (pairs.map Prod.fst).Nodup →
      (∀ kv ∈ pairs, kv.1 ∉ m.map Prod.fst) →
      pairs.foldl (fun acc kv => recordSet acc kv.1 kv.2) m = m ++ pairs := by
  induction pairs with
  | nil =>
    intro m _ _
    simp
  | cons kv rest ih =>
    intro m hnd hdis
    rw [List.foldl_cons]
    rw [recordSet_of_not_mem m kv.1 kv.2 (hdis kv (List.mem_cons_self _ _))]
    have hnd' : (rest.map Prod.fst).Nodup := by
      simp only [List.map_cons, List.nodup_cons] at hnd
      exact hnd.2
    have hk : kv.1 ∉ rest.map Prod.fst := by
      simp only [List.map_cons, List.nodup_cons] at hnd
      exact hnd.1
    have hdis' : ∀ p ∈ rest, p.1 ∉ (m ++ [(kv.1, kv.2)]).map Prod.fst := by
      intro p hp
      rw [List.map_append, List.mem_append]
      intro hcase
      rcases hcase with h1 | h1
      · exact hdis p (List.mem_cons_of_mem _ hp) h1
      · simp only [List.map_cons, List.map_nil, List.mem_singleton] at h1
        exact hk (h1 ▸ List.mem_map.mpr ⟨p, hp, rfl⟩)
    rw [ih (m ++ [(kv.1, kv.2)]) hnd' hdis']
    simp

/-- Collecting the headers of the encoded line list reconstructs the record. -/
theorem collectHeaders_encoded (L0 : Str) (hs : List (Str × Str)) (B : List Str)
    (hwf : ∀ kv ∈ hs, headerWF kv) (hnd : (hs.map Prod.fst).Nodup) :
    collectHeaders (L0 :: ((hs.map fun kv => kv.1 ++ chars ": " ++ kv.2 ++ ['\r'])
        ++ ['\r'] :: B)) (hs.length + 1)
      = hs := by
  unfold collectHeaders
  rw [show (L0 :: ((hs.map fun kv => kv.1 ++ chars ": " ++ kv.2 ++ ['\r'])
      ++ ['\r'] :: B)).drop 1
    = (hs.map fun kv => kv.1 ++ chars ": " ++ kv.2 ++ ['\r']) ++ ['\r'] :: B from rfl]
  rw [Nat.add_sub_cancel]
  rw [show hs.length = (hs.map fun kv => kv.1 ++ chars ": " ++ kv.2 ++ ['\r']).length by
    rw [List.length_map]]
  rw [List.take_left]
  have hgen : ∀ (sub : List (Str × Str)) (m : List (Str × Str)),
      (∀ kv ∈ sub, headerWF kv) →
      (sub.map fun kv => kv.1 ++ chars ": " ++ kv.2 ++ ['\r']).foldl
          (fun m line =>
            if line = [] then m
            else match parseHeaderLine (trimStr line) with
              | some kv => recordSet m kv.1 kv.2
              | none => m) m
        = sub.foldl (fun acc kv => recordSet acc kv.1 kv.2) m := by
    intro sub
    induction sub with
    | nil =>
      intro m _
      rfl
    | cons kv rest ihs =>
      intro m hwfs
      obtain ⟨hk1, hk2, hk3, hk4, _, _⟩ := hwfs kv (List.mem_cons_self _ _)
      rw [List.map_cons, List.foldl_cons, List.foldl_cons]
      have hne : kv.1 ++ chars ": " ++ kv.2 ++ ['\r'] ≠ [] := by
        obtain ⟨c, t, hct, _⟩ := trimmed_head kv.1 hk2 hk1
        rw [hct]
        simp
      rw [if_neg hne]
      rw [parseHeaderLine_encoded kv.1 kv.2 hk1 hk2 hk3 hk4]
      exact ihs _ fun p hp => hwfs p (List.mem_cons_of_mem _ hp)
  rw [hgen hs [] hwf]
  rw [foldl_recordSet_append hs [] hnd (by intro kv _; simp)]
  rfl

/-- Decoding an encoded well-formed request recovers it, the request line gaining
only a trailing CR. -/
theorem decodeRequest_encodeRequest (q : ParsedRequest) (hrl : '\n' ∉ q.requestLine)
    (hwf : ∀ kv ∈ q.headers, headerWF kv) (hnd : (q.headers.map Prod.fst).Nodup) :
    decodeRequest (encodeRequest q)
      = ⟨q.requestLine ++ ['\r'], q.headers, q.body⟩ := by
  have hk : ∀ kv ∈ q.headers, '\n' ∉ kv.1 := fun kv hkv => (hwf kv hkv).2.2.2.2.1
  have hv : ∀ kv ∈ q.headers, '\n' ∉ kv.2 := fun kv hkv => (hwf kv hkv).2.2.2.2.2
  have hsplit := splitOnChar_encodeRequest q hrl hk hv
  have hEnd := headerEndIndex_encoded (q.requestLine ++ ['\r']) q.headers
    (splitOnChar '\n' q.body) hwf
  have hBne : splitOnChar '\n' q.body ≠ [] := splitOnChar_ne_nil _ _
  have hBpos : 0 < (splitOnChar '\n' q.body).length := List.length_pos.mpr hBne
  unfold decodeRequest
  rw [hsplit, hEnd]
  rw [ParsedRequest.mk.injEq]
  refine ⟨by simp, collectHeaders_encoded _ _ _ hwf hnd, ?_⟩
  have hlen : ((q.requestLine ++ ['\r'])
      :: ((q.headers.map fun kv => kv.1 ++ chars ": " ++ kv.2 ++ ['\r'])
        ++ ['\r'] :: splitOnChar '\n' q.body)).length
      = q.headers.length + 2 + (splitOnChar '\n' q.body).length := by
    simp only [List.length_cons, List.length_append, List.length_map]
    omega
  rw [if_pos (by rw [hlen]; omega)]
  have hdrop : ((q.requestLine ++ ['\r'])
      :: ((q.headers.map fun kv => kv.1 ++ chars ": " ++ kv.2 ++ ['\r'])
        ++ ['\r'] :: splitOnChar '\n' q.body)).drop (q.headers.length + 1 + 1)
      = splitOnChar '\n' q.body := by
    rw [List.drop_succ_cons]
    rw [show ((q.headers.map fun kv => kv.1 ++ chars ": " ++ kv.2 ++ ['\r'])
        ++ ['\r'] :: splitOnChar '\n' q.body)
      = ((q.headers.map fun kv => kv.1 ++ chars ": " ++ kv.2 ++ ['\r']) ++ [['\r']])
        ++ splitOnChar '\n' q.body by simp]
    rw [show q.headers.length + 1
      = ((q.headers.map fun kv => kv.1 ++ chars ": " ++ kv.2 ++ ['\r']) ++ [['\r']]).length by
        simp]
    rw [List.drop_left]
  rw [hdrop]
  exact joinWith_splitOnChar '\n' q.body

/-- Index access of a split is stable under appending one non-separator character,
except at the last piece. -/
theorem splitOnChar_append_last_get? (sep c : Char) (hc : c ≠ sep) :
    ∀ (x : Str) (i : Nat), i + 1 < (splitOnChar sep x).length →
      (splitOnChar sep (x ++ [c])).get? i = (splitOnChar sep x).get? i := by
  intro x
  induction x with
  | nil =>
    intro i hi
    simp [splitOnChar] at hi
  | cons a x' ih =>
    intro i hi
    by_cases ha : a = sep
    · subst ha
      rw [List.cons_append, splitOnChar_cons_sep, splitOnChar_cons_sep]
      rw [splitOnChar_cons_sep] at hi
      cases i with
      | zero => rfl
      | succ j =>
        rw [List.get?_cons_succ, List.get?_cons_succ]
        apply ih
        simp only [List.length_cons] at hi
        omega
    · cases hx' : splitOnChar sep x' with
      | nil => exact absurd hx' (splitOnChar_ne_nil _ _)
      | cons h t =>
        cases hxc : splitOnChar sep (x' ++ [c]) with
        | nil => exact absurd hxc (splitOnChar_ne_nil _ _)
        | cons h2 t2 =>
          rw [splitOnChar_cons_ne sep a x' ha h t hx'] at hi
          simp only [List.length_cons] at hi
          rw [List.cons_append, splitOnChar_cons_ne sep a (x' ++ [c]) ha h2 t2 hxc,
            splitOnChar_cons_ne sep a x' ha h t hx']
          cases i with
          | zero =>
            have h0 := ih 0 (by rw [hx']; simp only [List.length_cons]; omega)
            rw [hxc, hx'] at h0
            simp only [List.get?_cons_zero, Option.some.injEq] at h0
            rw [h0]
            rfl
          | succ j =>
            have hj := ih (j + 1) (by rw [hx']; simp only [List.length_cons]; omega)
            rw [hxc, hx'] at hj
            simpa using hj

/-- C9 (amended): for every raw request whose request line has at least three
space-separated tokens, the decode-encode round trip preserves the method and path
tokens, the deduplicated header record (exact-name, last-occurrence-wins, names and
values trimmed), and the body; only CR/LF framing differs. Header multiplicity is
not preserved (see the counterexample). -/
theorem roundTrip_c9_amended (raw : Str) (htok : 3 ≤ (requestTokens raw).length) :
    (requestTokens (encodeRequest (decodeRequest raw))).get? 0 = (requestTokens raw).get? 0
    ∧ (requestTokens (encodeRequest (decodeRequest raw))).get? 1 = (requestTokens raw).get? 1
    ∧ (decodeRequest (encodeRequest (decodeRequest raw))).headers = (decodeRequest raw).headers
    ∧ (decodeRequest (encodeRequest (decodeRequest raw))).body = (decodeRequest raw).body := by
  obtain ⟨hrl, hwf, hnd⟩ := decodeRequest_wf raw
  have hk : ∀ kv ∈ (decodeRequest raw).headers, '\n' ∉ kv.1 :=
    fun kv hkv => (hwf kv hkv).2.2.2.2.1
  have hv : ∀ kv ∈ (decodeRequest raw).headers, '\n' ∉ kv.2 :=
    fun kv hkv => (hwf kv hkv).2.2.2.2.2
  have hdec := decodeRequest_encodeRequest (decodeRequest raw) hrl hwf hnd
  have htoks : requestTokens raw = splitOnChar ' ' (decodeRequest raw).requestLine := rfl
  have htokenc : requestTokens (encodeRequest (decodeRequest raw))
      = splitOnChar ' ' ((decodeRequest raw).requestLine ++ ['\r']) := by
    unfold requestTokens
    rw [splitOnChar_encodeRequest (decodeRequest raw) hrl hk hv]
    rfl
  refine ⟨?_, ?_, ?_, ?_⟩
  · rw [htokenc, htoks]
    exact splitOnChar_append_last_get? ' ' '\r' (by decide) _ 0
      (by rw [← htoks]; omega)
  · rw [htokenc, htoks]
    exact splitOnChar_append_last_get? ' ' '\r' (by decide) _ 1
      (by rw [← htoks]; omega)
  · rw [hdec]
  · rw [hdec]

/-- C9 (witness): the amended round trip at a concrete request. -/
theorem roundTrip_c9_amended_witness :
    (requestTokens (encodeRequest (decodeRequest (chars "GET /a HTTP/1.1\nHost: h\n\nbody")))).get? 0
        = (requestTokens (chars "GET /a HTTP/1.1\nHost: h\n\nbody")).get? 0
    ∧ (requestTokens (encodeRequest (decodeRequest (chars "GET /a HTTP/1.1\nHost: h\n\nbody")))).get? 1
        = (requestTokens (chars "GET /a HTTP/1.1\nHost: h\n\nbody")).get? 1
    ∧ (decodeRequest (encodeRequest (decodeRequest (chars "GET /a HTTP/1.1\nHost: h\n\nbody")))).headers
        = (decodeRequest (chars "GET /a HTTP/1.1\nHost: h\n\nbody")).headers
    ∧ (decodeRequest (encodeRequest (decodeRequest (chars "GET /a HTTP/1.1\nHost: h\n\nbody")))).body
        = (decodeRequest (chars "GET /a HTTP/1.1\nHost: h\n\nbody")).body :=
  roundTrip_c9_amended (chars "GET /a HTTP/1.1\nHost: h\n\nbody") (by decide)

/-- Prepending under the cap is a take of the cons. -/
theorem insertIntercepted_take (row : Row) (t : List Row) :
    insertIntercepted row t = (row :: t).take 500 := by
  unfold insertIntercepted
  split
  · rfl
  · next hn =>
    exact (List.take_of_length_le (by omega)).symm

/-- Taking n of an append absorbs an inner take n on the right part. -/
theorem take_append_take {α : Type} (n : Nat) (x y : List α) :
    (x ++ y.take n).take n = (x ++ y).take n := by
  rw [List.take_append_eq_append_take, List.take_append_eq_append_take, List.take_take]
  rw [Nat.min_eq_left (Nat.sub_le n x.length)]

/-- Repeated capped insertion keeps, of the reversed insertion order, the 500
newest rows (on top of a small enough starting ledger). -/
theorem insertIntercepted_foldl (rows acc : List Row) (hacc : acc.length ≤ 500) :
    rows.foldl (fun t r => insertIntercepted r t) acc = (rows.reverse ++ acc).take 500 := by
  induction rows generalizing acc with
  | nil => simp [List.take_of_length_le hacc]
  | cons r rs ih =>
    simp only [List.foldl_cons]
    rw [insertIntercepted_take]
    rw [ih ((r :: acc).take 500) (by rw [List.length_take]; omega)]
    rw [take_append_take]
    simp [List.reverse_cons, List.append_assoc]

/-- C2 (counterexample): on a state whose ledger already holds 500 rows, the manual
process-from-history path inserts with no cap: the resulting ledger has 501 rows, so
the claimed size bound fails on that insertion path. -/
theorem ledger_c2_counterexample :
    ((processRequestFromHistory
        (some { request := some (demoReq 501), response := some demoResp })
        (chars "X: y") none
        { isPluginEnabled := true,
          capturedTraffic := (List.range 500).map demoRow,
          modifiedRequestIds := [],
          pendingResponseQueue := [] }).2).capturedTraffic.length = 501 := by
  set_option maxRecDepth 4000 in
  show (insertFromHistory _ ((List.range 500).map demoRow)).length = 501
  show (_ :: (List.range 500).map demoRow).length = 501
  rw [List.length_cons, List.length_map, List.length_range]

/-- C2 (amended): the interception insertion path preserves the 500-row cap and,
from an empty ledger, retains exactly the reversed insertion order cut to the 500
newest rows; the manual process-from-history path prepends with no cap. -/
theorem ledger_c2_amended :
    (∀ (row : Row) (t : List Row), t.length ≤ 500 → (insertIntercepted row t).length ≤ 500)
    ∧ (∀ rows : List Row,
        rows.foldl (fun t r => insertIntercepted r t) [] = rows.reverse.take 500)
    ∧ (∀ (row : Row) (t : List Row), insertFromHistory row t = row :: t) := by
  refine ⟨fun row t ht => ?_, fun rows => ?_, fun _ _ => rfl⟩
  · rw [insertIntercepted_take, List.length_take]
    omega
  · rw [insertIntercepted_foldl rows [] (by simp), List.append_nil]

/-- C2 (witness): the amended statement at one row and the empty ledger. -/
theorem ledger_c2_amended_witness :
    (insertIntercepted demoRow0 []).length ≤ 500
    ∧ [demoRow0].foldl (fun t r => insertIntercepted r t) [] = [demoRow0].reverse.take 500
    ∧ insertFromHistory demoRow0 [] = [demoRow0] :=
  ⟨ledger_c2_amended.1 demoRow0 [] (by decide),
   ledger_c2_amended.2.1 [demoRow0],
   ledger_c2_amended.2.2 demoRow0 []⟩

/-- A found index points at an element satisfying the predicate. -/
theorem findIdx?_some_get? {α : Type} (p : α → Bool) :
    ∀ (l : List α) (i : Nat), l.findIdx? p = some i →
      ∃ x, l.get? i = some x ∧ p x = true := by
  intro l
  induction l with
  | nil => intro i h; simp [List.findIdx?] at h
  | cons a t ih =>
    intro i h
    rw [List.findIdx?_cons] at h
    by_cases ha : p a = true
    · rw [if_pos ha] at h
      cases h
      exact ⟨a, rfl, ha⟩
    · rw [if_neg ha, List.findIdx?_succ] at h
      cases hfi : t.findIdx? p with
      | none => rw [hfi] at h; simp at h
      | some j =>
        rw [hfi] at h
        simp at h
        subst h
        obtain ⟨x, hx, hpx⟩ := ih j hfi
        exact ⟨x, by simpa using hx, hpx⟩

/-- Row search by ID fails exactly when no ledger row carries the ID. -/
theorem findIdx?_id_none (traffic : List Row) (x : Str) :
    (traffic.findIdx? fun row => row.id = x) = none ↔ x ∉ traffic.map Row.id := by
  constructor
  · intro h hmem
    obtain ⟨row, hrow, hid⟩ := List.mem_map.mp hmem
    have hf := findIdx?_none_false _ traffic h row hrow
    simp [hid] at hf
  · intro h
    cases hfi : traffic.findIdx? (fun row => decide (row.id = x)) with
    | none => rfl
    | some i =>
      obtain ⟨row, hget, hp⟩ := findIdx?_some_get? _ traffic i hfi
      exact absurd (List.mem_map.mpr ⟨row, List.get?_mem hget, of_decide_eq_true hp⟩) h

/-- Replacing an entry by one with the same image leaves the mapped list unchanged. -/
theorem map_set_eq {α β : Type} (f : α → β) : ∀ (l : List α) (n : Nat) (a b : α),
    l.get? n = some a → f b = f a → (l.set n b).map f = l.map f := by
  intro l
  induction l with
  | nil => intro n a b h _; simp at h
  | cons x t ih =>
    intro n a b h hf
    cases n with
    | zero =>
      injection h with h2
      show f b :: t.map f = f x :: t.map f
      rw [hf, h2]
    | succ m =>
      show f x :: (t.set m b).map f = f x :: t.map f
      rw [ih m a b h hf]

/-- Membership in a JS Set after add. -/
theorem mem_setAdd (s : List Str) (a x : Str) : x ∈ setAdd s a ↔ x ∈ s ∨ x = a := by
  unfold setAdd
  split
  · next h =>
    constructor
    · exact Or.inl
    · rintro (hx | rfl)
      · exact hx
      · exact h
  · next h => simp [List.mem_append]

/-- Membership in a JS Set after delete. -/
theorem mem_setDelete (s : List Str) (a x : Str) : x ∈ setDelete s a ↔ x ∈ s ∧ x ≠ a := by
  unfold setDelete
  rw [List.mem_filter]
  simp

/-- Membership after deleting a batch of IDs. -/
theorem mem_foldl_setDelete : ∀ (l q : List Str) (x : Str),
    x ∈ l.foldl setDelete q ↔ x ∈ q ∧ x ∉ l := by
  intro l
  induction l with
  | nil => intro q x; simp
  | cons a as ih =>
    intro q x
    rw [List.foldl_cons, ih, mem_setDelete]
    constructor
    · rintro ⟨⟨hq, hne⟩, hnas⟩
      exact ⟨hq, fun hm => (List.mem_cons.mp hm).elim hne hnas⟩
    · rintro ⟨hq, hncons⟩
      exact ⟨⟨hq, fun he => hncons (he ▸ List.mem_cons_self _ _)⟩,
        fun hm => hncons (List.mem_cons_of_mem _ hm)⟩

/-- Code point of a small constructed character. -/
theorem charOfNat_toNat (m : Nat) (h : m < 55296) : (Char.ofNat m).toNat = m := by
  unfold Char.ofNat
  rw [dif_pos (Or.inl h)]
  simp [Char.ofNatAux, Char.toNat, UInt32.toNat, BitVec.toNat_ofNatLt]

/-- Distinct small codes give distinct scenario IDs. -/
theorem mkId_ne (m k : Nat) (hm : m < 600) (hk : k < 600) (hne : m ≠ k) :
    mkId m ≠ mkId k := by
  unfold mkId
  intro h
  injection h with h1 _
  have h2 := congrArg Char.toNat h1
  rw [charOfNat_toNat (100 + m) (by omega), charOfNat_toNat (100 + k) (by omega)] at h2
  omega

/-- Behavior of the reconciliation loop over a snapshot: the ledger's ID column
never changes; an ID stays in the live queue unless its lookup failed while it was
in the snapshot; an ID is collected as updated exactly when it already was, or it
is in the snapshot with an arrived response and a ledger row carrying it. -/
theorem tickLoop_spec (fetch : Str → Option RequestResponse) :
    ∀ (snap : List Str) (traffic : List Row) (queue updated : List Str),
    ((tickLoop fetch snap (traffic, queue, updated)).1.map Row.id = traffic.map Row.id)
    ∧ (∀ x, x ∈ (tickLoop fetch snap (traffic, queue, updated)).2.1
        ↔ x ∈ queue ∧ ¬(x ∈ snap ∧ fetch x = none))
    ∧ (∀ x, x ∈ (tickLoop fetch snap (traffic, queue, updated)).2.2
        ↔ x ∈ updated ∨ (x ∈ snap ∧ respArrived fetch x ∧ x ∈ traffic.map Row.id)) := by
  intro snap
  induction snap with
  | nil =>
    intro traffic queue updated
    refine ⟨rfl, fun x => ?_, fun x => ?_⟩
    · simp [tickLoop]
    · simp [tickLoop]
  | cons a rest ih =>
    intro traffic queue updated
    cases hfa : fetch a with
    | none =>
      have hstep : tickLoop fetch (a :: rest) (traffic, queue, updated)
          = tickLoop fetch rest (traffic, setDelete queue a, updated) := by
        simp only [tickLoop, hfa]
      rw [hstep]
      obtain ⟨ih1, ih2, ih3⟩ := ih traffic (setDelete queue a) updated
      refine ⟨ih1, fun x => ?_, fun x => ?_⟩
      · rw [ih2 x, mem_setDelete]
        by_cases hxa : x = a
        · subst hxa
          simp [hfa, List.mem_cons]
        · simp [hxa, List.mem_cons]
      · rw [ih3 x]
        by_cases hxa : x = a
        · subst hxa
          have hra : ¬ respArrived fetch x := by
            rintro ⟨rr, resp, hf, _, _⟩
            rw [hfa] at hf
            cases hf
          simp [List.mem_cons, hra]
        · simp [hxa, List.mem_cons]
    | some rr =>
      cases hresp : rr.response with
      | none =>
        have hstep : tickLoop fetch (a :: rest) (traffic, queue, updated)
            = tickLoop fetch rest (traffic, queue, updated) := by
          simp only [tickLoop, hfa, hresp]
        rw [hstep]
        obtain ⟨ih1, ih2, ih3⟩ := ih traffic queue updated
        have hra : ¬ respArrived fetch a := by
          rintro ⟨rr2, resp2, hf, hr, _⟩
          rw [hfa] at hf
          injection hf with hf
          subst hf
          rw [hresp] at hr
          cases hr
        refine ⟨ih1, fun x => ?_, fun x => ?_⟩
        · rw [ih2 x]
          by_cases hxa : x = a
          · subst hxa
            simp [hfa, List.mem_cons]
          · simp [hxa, List.mem_cons]
        · rw [ih3 x]
          by_cases hxa : x = a
          · subst hxa
            simp [List.mem_cons, hra]
          · simp [hxa, List.mem_cons]
      | some resp =>
        by_cases hraw : resp.raw = []
        · have hstep : tickLoop fetch (a :: rest) (traffic, queue, updated)
              = tickLoop fetch rest (traffic, queue, updated) := by
            simp only [tickLoop, hfa, hresp, if_pos hraw]
          rw [hstep]
          obtain ⟨ih1, ih2, ih3⟩ := ih traffic queue updated
          have hra : ¬ respArrived fetch a := by
            rintro ⟨rr2, resp2, hf, hr, hne⟩
            rw [hfa] at hf
            injection hf with hf
            subst hf
            rw [hresp] at hr
            injection hr with hr
            subst hr
            exact hne hraw
          refine ⟨ih1, fun x => ?_, fun x => ?_⟩
          · rw [ih2 x]
            by_cases hxa : x = a
            · subst hxa
              simp [hfa, List.mem_cons]
            · simp [hxa, List.mem_cons]
          · rw [ih3 x]
            by_cases hxa : x = a
            · subst hxa
              simp [List.mem_cons, hra]
            · simp [hxa, List.mem_cons]
        · cases hfind : traffic.findIdx? (fun row => decide (row.id = a)) with
          | none =>
            have hstep : tickLoop fetch (a :: rest) (traffic, queue, updated)
                = tickLoop fetch rest (traffic, queue, updated) := by
              simp only [tickLoop, hfa, hresp, if_neg hraw, hfind]
            rw [hstep]
            obtain ⟨ih1, ih2, ih3⟩ := ih traffic queue updated
            have hnm : a ∉ traffic.map Row.id := (findIdx?_id_none traffic a).mp hfind
            refine ⟨ih1, fun x => ?_, fun x => ?_⟩
            · rw [ih2 x]
              by_cases hxa : x = a
              · subst hxa
                simp [hfa, List.mem_cons]
              · simp [hxa, List.mem_cons]
            · rw [ih3 x]
              by_cases hxa : x = a
              · subst hxa
                simp [List.mem_cons, hnm]
              · simp [hxa, List.mem_cons]
          | some ri =>
            cases hget : traffic.get? ri with
            | none =>
              obtain ⟨x0, hx0, _⟩ := findIdx?_some_get? _ traffic ri hfind
              rw [hget] at hx0
              simp at hx0
            | some row =>
              have hstep : tickLoop fetch (a :: rest) (traffic, queue, updated)
                  = tickLoop fetch rest
                      (traffic.set ri (updateRowWith row resp), queue, setAdd updated a) := by
                simp only [tickLoop, hfa, hresp, if_neg hraw, hfind, hget]
              rw [hstep]
              obtain ⟨ih1, ih2, ih3⟩ := ih (traffic.set ri (updateRowWith row resp))
                queue (setAdd updated a)
              have hidrow : Row.id (updateRowWith row resp) = Row.id row := by
                unfold updateRowWith
                split <;> rfl
              have hids : (traffic.set ri (updateRowWith row resp)).map Row.id
                  = traffic.map Row.id :=
                map_set_eq Row.id traffic ri row (updateRowWith row resp) hget hidrow
              have hra : respArrived fetch a := ⟨rr, resp, hfa, hresp, hraw⟩
              have hmem : a ∈ traffic.map Row.id := by
                by_contra hn
                rw [← findIdx?_id_none traffic a] at hn
                rw [hfind] at hn
                cases hn
              refine ⟨by rw [ih1, hids], fun x => ?_, fun x => ?_⟩
              · rw [ih2 x]
                by_cases hxa : x = a
                · subst hxa
                  simp [hfa, List.mem_cons]
                · simp [hxa, List.mem_cons]
              · rw [ih3 x, mem_setAdd, hids]
                by_cases hxa : x = a
                · subst hxa
                  simp [List.mem_cons, hra, hmem]
                · simp [hxa, List.mem_cons]

/-- One intercepted demo request with a full response prepends its row under the
cap and touches nothing else. -/
theorem handleIntercepted_demo_step (n : Nat) (s : PluginState)
    (h : s.isPluginEnabled = true) :
    handleInterceptedResponse gatesOpen [] [] none (demoReq (n + 1)) (some demoResp) s
      = { s with capturedTraffic := insertIntercepted (demoRow (n + 1)) s.capturedTraffic } := by
  obtain ⟨e, tr, mids, pq⟩ := s
  replace h : e = true := h
  subst h
  rfl

/-- The first demo request, carrying an empty-raw response, is ledgered and queued. -/
theorem handleIntercepted_demo_init :
    handleInterceptedResponse gatesOpen [] [] none (demoReq 0) (some demoRespEmpty)
        demoInit
      = { isPluginEnabled := true, capturedTraffic := [demoRow0],
          modifiedRequestIds := [], pendingResponseQueue := [mkId 0] } := by
  rfl

/-- Folding demo interceptions over an enabled state folds capped insertions over
its ledger. -/
theorem demo_fold : ∀ (l : List Nat) (s : PluginState), s.isPluginEnabled = true →
    l.foldl (fun st n => handleInterceptedResponse gatesOpen [] [] none
        (demoReq (n + 1)) (some demoResp) st) s
      = { s with capturedTraffic :=
            l.foldl (fun t n => insertIntercepted (demoRow (n + 1)) t) s.capturedTraffic } := by
  intro l
  induction l with
  | nil => intro s h; rfl
  | cons a as ih =>
    intro s h
    simp only [List.foldl_cons]
    rw [handleIntercepted_demo_step a s h]
    exact ih _ h

/-- Folding indexed demo insertions is folding the mapped rows. -/
theorem foldl_ins_map : ∀ (l : List Nat) (acc : List Row),
    l.foldl (fun t n => insertIntercepted (demoRow (n + 1)) t) acc
      = (l.map (fun n => demoRow (n + 1))).foldl (fun t r => insertIntercepted r t) acc := by
  intro l
  induction l with
  | nil => intro acc; rfl
  | cons a as ih =>
    intro acc
    simp only [List.map_cons, List.foldl_cons]
    exact ih _

/-- Closed form of the pending-orphan scenario's final state: the 500 later rows in
newest-first order, with the first request's row trimmed away and its ID pending. -/
theorem demoFinal_eq :
    demoFinal = { isPluginEnabled := true,
                  capturedTraffic :=
                    ((List.range 500).map (fun n => demoRow (n + 1))).reverse,
                  modifiedRequestIds := [],
                  pendingResponseQueue := [mkId 0] } := by
  unfold demoFinal
  rw [handleIntercepted_demo_init]
  rw [demo_fold (List.range 500) _ rfl]
  have hfm := foldl_ins_map (List.range 500) [demoRow0]
  have hlen : ((List.range 500).map (fun n => demoRow (n + 1))).reverse.length = 500 := by
    rw [List.length_reverse, List.length_map, List.length_range]
  have htr : (List.range 500).foldl (fun t n => insertIntercepted (demoRow (n + 1)) t)
        [demoRow0]
      = ((List.range 500).map (fun n => demoRow (n + 1))).reverse := by
    rw [hfm, insertIntercepted_foldl _ [demoRow0] (by simp)]
    exact List.take_left' hlen
  show ({ isPluginEnabled := true,
          capturedTraffic := (List.range 500).foldl
            (fun t n => insertIntercepted (demoRow (n + 1)) t) [demoRow0],
          modifiedRequestIds := [], pendingResponseQueue := [mkId 0] } : PluginState) = _
  rw [htr]

set_option maxRecDepth 40000 in
/-- C4 (counterexample): the reconciliation pass deletes a pending ID whose lookup
finds nothing although no response was ever observed for it; and from the empty
enabled state, 501 intercepted requests (the first with an empty-raw response)
leave the first ID pending while its ledger row has been trimmed away, so the
pending set holds an ID with no ledger record. -/
theorem pending_c4_counterexample :
    (processPendingResponses (fun _ => none)
        { isPluginEnabled := true,
          capturedTraffic := [demoRow0],
          modifiedRequestIds := [],
          pendingResponseQueue := [mkId 0] }).pendingResponseQueue = []
    ∧ mkId 0 ∈ demoFinal.pendingResponseQueue
    ∧ mkId 0 ∉ demoFinal.capturedTraffic.map Row.id := by
  refine ⟨by decide, ?_, ?_⟩
  · rw [demoFinal_eq]
    exact List.mem_singleton.mpr rfl
  · rw [demoFinal_eq]
    intro hmem
    obtain ⟨row, hrow, hid⟩ := List.mem_map.mp hmem
    obtain ⟨n, hn, hg⟩ := List.mem_map.mp (List.mem_reverse.mp hrow)
    have hlt : n < 500 := List.mem_range.mp hn
    have hid2 : mkId (n + 1) = mkId 0 := by rw [← hg] at hid; exact hid
    exact mkId_ne (n + 1) 0 (by omega) (by omega) (by omega) hid2

/-- C4 (amended): for an enabled state and a pending ID, a reconciliation pass
removes the ID from the pending queue exactly when its history lookup fails (no
response observed at all), or a nonempty raw response has arrived for it and the
ledger currently holds a row with that ID. -/
theorem pending_c4_amended (fetch : Str → Option RequestResponse) (s : PluginState)
    (x : Str) (hen : s.isPluginEnabled = true) (hx : x ∈ s.pendingResponseQueue) :
    x ∉ (processPendingResponses fetch s).pendingResponseQueue
      ↔ fetch x = none
        ∨ (respArrived fetch x ∧ x ∈ s.capturedTraffic.map Row.id) := by
  have hne : ¬ s.pendingResponseQueue.length = 0 := by
    intro h0
    rw [List.length_eq_zero] at h0
    rw [h0] at hx
    cases hx
  unfold processPendingResponses
  rw [if_neg (by simp [hen]), if_neg hne]
  rcases htl : tickLoop fetch s.pendingResponseQueue
      (s.capturedTraffic, s.pendingResponseQueue, []) with ⟨t1, q1, u1⟩
  have hspec := tickLoop_spec fetch s.pendingResponseQueue s.capturedTraffic
    s.pendingResponseQueue []
  rw [htl] at hspec
  obtain ⟨h1, h2, h3⟩ := hspec
  have h2q : ∀ y, y ∈ q1 ↔
      (y ∈ s.pendingResponseQueue
        ∧ ¬(y ∈ s.pendingResponseQueue ∧ fetch y = none)) := h2
  have h3u : ∀ y, y ∈ u1 ↔
      (y ∈ ([] : List Str)
        ∨ (y ∈ s.pendingResponseQueue ∧ respArrived fetch y
            ∧ y ∈ s.capturedTraffic.map Row.id)) := h3
  show x ∉ u1.foldl setDelete q1 ↔ _
  constructor
  · intro hnot
    by_cases hf : fetch x = none
    · exact Or.inl hf
    · right
      have hq1 : x ∈ q1 := (h2q x).mpr ⟨hx, fun hc => hf hc.2⟩
      have hu1 : x ∈ u1 := by
        by_contra hnu
        exact hnot ((mem_foldl_setDelete u1 q1 x).mpr ⟨hq1, hnu⟩)
      rcases (h3u x).mp hu1 with hc | ⟨_, hra, hm⟩
      · cases hc
      · exact ⟨hra, hm⟩
  · intro hor hmem
    obtain ⟨hq1, hnu⟩ := (mem_foldl_setDelete u1 q1 x).mp hmem
    rcases hor with hf | ⟨hra, hm⟩
    · exact ((h2q x).mp hq1).2 ⟨hx, hf⟩
    · exact hnu ((h3u x).mpr (Or.inr ⟨hx, hra, hm⟩))

/-- C4 (witness): the amended characterization applied with a failing lookup. -/
theorem pending_c4_amended_witness :
    mkId 1 ∉ (processPendingResponses (fun _ => none)
      { isPluginEnabled := true, capturedTraffic := [demoRow0],
        modifiedRequestIds := [],
        pendingResponseQueue := [mkId 1] }).pendingResponseQueue :=
  (pending_c4_amended (fun _ => none)
      { isPluginEnabled := true, capturedTraffic := [demoRow0],
        modifiedRequestIds := [], pendingResponseQueue := [mkId 1] }
      (mkId 1) rfl (by decide)).mpr (Or.inl rfl)

/-- C5 (counterexample): a historical request whose header set exactly matches the
configured auth headers is flagged by the spec's Gate check 1, yet
processRequestFromHistory performs no such check even while the plugin is disabled:
it returns Ok and inserts a row for the flagged request. -/
theorem processRequestFromHistory_c5_counterexample :
    isPluginGeneratedRequestSpec c5Req.headersList (chars "X-Token: abc") = true
    ∧ (processRequestFromHistory (some ⟨some c5Req, some demoResp⟩)
        (chars "X-Token: abc") none c5State).1 = JsResult.ok
    ∧ ((processRequestFromHistory (some ⟨some c5Req, some demoResp⟩)
        (chars "X-Token: abc") none c5State).2).capturedTraffic.length = 1 := by
  refine ⟨by decide, by decide, by decide⟩

/-- C5 (amended): manual processing of one historical request ignores the enabled
flag entirely (its result and every state change are the same with the flag forced
to either value), and whenever the lookup succeeds with both objects present, auth
text is configured and both raw texts are nonempty, it returns Ok and prepends
exactly one row for the looked-up request to the ledger; no self-generated-request
check is consulted anywhere. -/
theorem processRequestFromHistory_c5_amended (fetch : Option RequestResponse)
    (authText : Str) (dispatch : Option RespObj) (s : PluginState) (b : Bool) :
    (processRequestFromHistory fetch authText dispatch { s with isPluginEnabled := b }
      = ((processRequestFromHistory fetch authText dispatch s).1,
         { (processRequestFromHistory fetch authText dispatch s).2 with
           isPluginEnabled := b }))
    ∧ (∀ req resp, fetch = some { request := some req, response := some resp } →
        trimStr authText ≠ [] → req.raw ≠ [] → resp.raw ≠ [] →
        (processRequestFromHistory fetch authText dispatch s).1 = JsResult.ok
        ∧ ∃ row : Row,
            (processRequestFromHistory fetch authText dispatch s).2.capturedTraffic
              = row :: s.capturedTraffic
            ∧ row.id = req.id) := by
  constructor
  · rcases fetch with _ | ⟨rq, rs⟩
    · rfl
    rcases rq with _ | req
    · rfl
    rcases rs with _ | resp
    · rfl
    simp only [processRequestFromHistory]
    split_ifs <;> rfl
  · rintro req resp rfl hauth hreq hresp
    simp only [processRequestFromHistory]
    rw [if_neg hauth, if_neg (fun hc => hc.elim hreq hresp)]
    exact ⟨rfl, ⟨_, rfl, rfl⟩⟩

/-- C5 (witness): the amended statement at a concrete lookup, auth text and state. -/
theorem processRequestFromHistory_c5_amended_witness :
    (processRequestFromHistory (some ⟨some c5Req, some demoResp⟩) (chars "A: b") none
        { c5State with isPluginEnabled := true }
      = ((processRequestFromHistory (some ⟨some c5Req, some demoResp⟩) (chars "A: b")
            none c5State).1,
         { (processRequestFromHistory (some ⟨some c5Req, some demoResp⟩) (chars "A: b")
              none c5State).2 with isPluginEnabled := true }))
    ∧ (processRequestFromHistory (some ⟨some c5Req, some demoResp⟩) (chars "A: b")
        none c5State).1 = JsResult.ok := by
  have h := processRequestFromHistory_c5_amended (some ⟨some c5Req, some demoResp⟩)
    (chars "A: b") none c5State true
  exact ⟨h.1, (h.2 c5Req demoResp rfl (by decide) (by decide) (by decide)).1⟩

end Authify
